import Mathlib

/-!
Verification of the Moonfire NVR recording storage engine (sample-index codec,
Segment, ClockAdjuster, Writer/Syncer state machines, SimulatedClocks).

Source files embedded: `src/db/recording.rs`, `src/db/writer.rs`,
`src/base/clock.rs`.  The helper modules `coding.rs` (varint + zigzag),
`db.rs` (`RecordingToInsert`, `CompositeId`) and `base/time.rs` are not part
of the sources; the few definitions needed from them are modelled from the
specification (each such definition is marked `Modelled from the spec`).

Conventions of the embedding:
* Machine integers (`i32`, `i64`, `u32`) are modelled as `Int`/`Nat`.
  Explicit casts in the source (`as u32`, `as i32`, `<< 1` on `u32`) are
  modelled with explicit `% 2^32` / wrap operations, since Rust defines
  their wrapping semantics.  Plain `i32` arithmetic that would overflow
  panics in the source (debug builds), so the embedding keeps it exact on
  `Int` and theorems carry range hypotheses placing all values inside the
  ranges where no overflow can occur.
* `&mut` state is explicit state passing; `Result<T, Error>` is
  `Except String T`, with error strings built exactly as the source's
  `bail!` format strings build them.
-/

/-! ### coding.rs (modelled from the spec, §4.2) -/

/-- Modelled from the spec: the little-endian base-128 varint byte string of
`v` (LEB128-style, 7 data bits per byte, high bit = continuation).
`coding.rs` is not among the sources. -/
def varintBytes (v : Nat) : List Nat :=
  if h : v < 128 then [v] else (v % 128 + 128) :: varintBytes (v / 128)
termination_by v
decreasing_by exact Nat.div_lt_self (by omega) (by omega)

/-- Modelled from the spec: `append_varint32(i, data)` appends the varint
encoding of `i` to `data`. -/
def append_varint32 (v : Nat) (data : List Nat) : List Nat :=
  data ++ varintBytes v

/-- Modelled from the spec: decode one varint from the front of a byte list,
returning the value and the number of bytes consumed; `none` when the input
ends in the middle of a varint (continuation bit set with no following
byte). -/
def decodeVarintList : List Nat → Option (Nat × Nat)
  | [] => none
  | b :: rest =>
    if b < 128 then some (b, 1)
    else
      match decodeVarintList rest with
      | none => none
      | some (v, n) => some ((b - 128) + v * 128, n + 1)

/-- Modelled from the spec: `decode_varint32(data, i)` decodes a varint
starting at byte offset `i` of `data`, returning the value and the offset
just past it. -/
def decode_varint32 (data : List Nat) (i : Nat) : Option (Nat × Nat) :=
  match decodeVarintList (data.drop i) with
  | none => none
  | some (v, n) => some (v, i + n)

/-- Modelled from the spec: `zigzag32(n) = (n << 1) ^ (n >> 31)` over 32-bit
signed integers, i.e. `n ≥ 0 ↦ 2n` and `n < 0 ↦ -2n - 1`. -/
def zigzag32 (n : Int) : Nat :=
  if 0 ≤ n then (2 * n).toNat else (-2 * n - 1).toNat

/-- Modelled from the spec: inverse of `zigzag32` (`(i >> 1) ^ -(i & 1)`). -/
def unzigzag32 (r : Nat) : Int :=
  if r % 2 = 0 then (r / 2 : Nat) else -((r / 2 : Nat) : Int) - 1

/-! ### recording.rs: SampleIndexIterator -/

/-- `pub const MAX_RECORDING_DURATION: i64 = 5 * 60 * TIME_UNITS_PER_SEC;` -/
def MAX_RECORDING_DURATION : Int := 5 * 60 * 90000

/-- `struct SampleIndexIterator` (src/db/recording.rs).  `i_and_is_key` is the
`u32` packing the next index byte position (low 31 bits) with the current
sample's key-frame flag (high bit). -/
structure SampleIndexIterator where
  i_and_is_key : Nat
  pos : Int
  start_90k : Int
  duration_90k : Int
  bytes : Int
  bytes_other : Int
deriving Repr, DecidableEq

/-- `SampleIndexIterator::new()`. -/
def SampleIndexIterator.new : SampleIndexIterator :=
  ⟨0, 0, 0, 0, 0, 0⟩

/-- `SampleIndexIterator::is_key()`: `(i_and_is_key & 0x8000_0000) != 0`,
i.e. bit 31 of the `u32`. -/
def SampleIndexIterator.is_key (s : SampleIndexIterator) : Bool :=
  s.i_and_is_key / 2 ^ 31 % 2 = 1

/-- `SampleIndexIterator::uninitialized()`. -/
def SampleIndexIterator.uninitialized (s : SampleIndexIterator) : Bool :=
  s.i_and_is_key = 0

/-- `SampleIndexIterator::next(&mut self, data)` (src/db/recording.rs).
Returns the advanced iterator together with the `Ok` boolean; `&mut self`
becomes explicit state passing and each early `bail!` an `.error` branch.
`i & 0x7FFF_FFFF` is `% 2^31`, `raw1 >> 1` is `/ 2`, `raw1 & 1` is `% 2`, and
`(i2 as u32) | (((raw1 & 1) as u32) << 31)` is `i2 % 2^32 ||| (raw1 % 2) * 2^31`. -/
def SampleIndexIterator.next (self : SampleIndexIterator) (data : List Nat) :
    Except String (Bool × SampleIndexIterator) :=
  let pos := self.pos + self.bytes
  let start_90k := self.start_90k + self.duration_90k
  let i := self.i_and_is_key % 2 ^ 31
  if i = data.length then .ok (false, { self with pos, start_90k })
  else
    match decode_varint32 data i with
    | none => .error ("bad varint 1 at offset " ++ toString i)
    | some (raw1, i1) =>
      match decode_varint32 data i1 with
      | none => .error ("bad varint 2 at offset " ++ toString i1)
      | some (raw2, i2) =>
        let duration_90k_delta := unzigzag32 (raw1 / 2)
        let duration_90k := self.duration_90k + duration_90k_delta
        if duration_90k < 0 then
          .error ("negative duration " ++ toString duration_90k ++
            " after applying delta " ++ toString duration_90k_delta)
        else if duration_90k = 0 ∧ data.length > i2 then
          .error ("zero duration only allowed at end; have " ++
            toString (data.length - i2) ++ " bytes left")
        else
          let (prev_bytes_key, prev_bytes_nonkey) :=
            match self.is_key with
            | true => (self.bytes, self.bytes_other)
            | false => (self.bytes_other, self.bytes)
          let i_and_is_key := i2 % 2 ^ 32 ||| raw1 % 2 * 2 ^ 31
          let new_is_key : Bool := i_and_is_key / 2 ^ 31 % 2 = 1
          let bytes_delta := unzigzag32 raw2
          let (bytes, bytes_other) :=
            if new_is_key then (prev_bytes_key + bytes_delta, prev_bytes_nonkey)
            else (prev_bytes_nonkey + bytes_delta, prev_bytes_key)
          if bytes ≤ 0 then
            .error ("non-positive bytes " ++ toString bytes ++
              " after applying delta " ++ toString bytes_delta ++
              " to key=" ++ toString new_is_key ++ " frame at ts " ++ toString start_90k)
          else .ok (true, { i_and_is_key, pos, start_90k, duration_90k, bytes, bytes_other })

/-! ### db.rs: RecordingToInsert (modelled from the spec, §3) -/

/-- Modelled from the spec: the fields of `db::RecordingToInsert` used by the
embedded code (`db.rs` is not among the sources).  Times are 90 kHz ticks. -/
structure RecordingToInsert where
  start : Int
  duration_90k : Int
  sample_file_bytes : Int
  video_samples : Int
  video_sync_samples : Int
  run_offset : Int
  video_index : List Nat
deriving Repr, DecidableEq

/-- Modelled from the spec: `RecordingToInsert::default()` (zeroed row). -/
def RecordingToInsert.empty : RecordingToInsert :=
  ⟨0, 0, 0, 0, 0, 0, []⟩

/-! ### recording.rs: SampleIndexEncoder -/

/-- `struct SampleIndexEncoder` (src/db/recording.rs). -/
structure SampleIndexEncoder where
  prev_duration_90k : Int
  prev_bytes_key : Int
  prev_bytes_nonkey : Int
deriving Repr, DecidableEq

/-- `SampleIndexEncoder::new()`. -/
def SampleIndexEncoder.new : SampleIndexEncoder :=
  ⟨0, 0, 0⟩

/-- `SampleIndexEncoder::add_sample(&mut self, duration_90k, bytes, is_key, r)`
(src/db/recording.rs).  Both `&mut` arguments become explicit state: the
result carries the encoder, the recording row, and the `Result`.  Note the
source assigns `self.prev_duration_90k = duration_90k` *before* the
`MAX_RECORDING_DURATION` check, so the encoder keeps that assignment even on
the error path while `r` is untouched.  `zigzag32(duration_delta) << 1` is a
`u32` shift, hence the `% 2^32`; `| (is_key as u32)` sets the (clear) low
bit, hence `+`. -/
def SampleIndexEncoder.add_sample (self : SampleIndexEncoder)
    (duration_90k bytes : Int) (is_key : Bool) (r : RecordingToInsert) :
    SampleIndexEncoder × RecordingToInsert × Except String Unit :=
  let duration_delta := duration_90k - self.prev_duration_90k
  let self := { self with prev_duration_90k := duration_90k }
  let new_duration_90k := r.duration_90k + duration_90k
  if new_duration_90k > MAX_RECORDING_DURATION then
    (self, r, .error ("Duration " ++ toString new_duration_90k ++
      " exceeds maximum " ++ toString MAX_RECORDING_DURATION))
  else
    let r := { r with duration_90k := r.duration_90k + duration_90k,
                      sample_file_bytes := r.sample_file_bytes + bytes,
                      video_samples := r.video_samples + 1 }
    let (bytes_delta, self, r) :=
      if is_key then
        (bytes - self.prev_bytes_key,
         { self with prev_bytes_key := bytes },
         { r with video_sync_samples := r.video_sync_samples + 1 })
      else
        (bytes - self.prev_bytes_nonkey,
         { self with prev_bytes_nonkey := bytes }, r)
    let raw1 := zigzag32 duration_delta * 2 % 2 ^ 32 + (if is_key then 1 else 0)
    let vi := append_varint32 (zigzag32 bytes_delta) (append_varint32 raw1 r.video_index)
    let r := { r with video_index := vi }
    (self, r, .ok ())

/-! ### Harness for the codec claims: sequences of samples -/

/-- A `(duration_90k, bytes, is_key)` triple as fed to `add_sample` and
reported by the iterator. -/
structure Sample where
  duration_90k : Int
  bytes : Int
  is_key : Bool
deriving Repr, DecidableEq

/-- Feed a list of samples through successive `add_sample` calls, stopping at
the first error. -/
def addSamples : SampleIndexEncoder → RecordingToInsert → List Sample →
    SampleIndexEncoder × RecordingToInsert × Except String Unit
  | e, r, [] => (e, r, .ok ())
  | e, r, s :: ss =>
    match e.add_sample s.duration_90k s.bytes s.is_key r with
    | (e', r', .ok ()) => addSamples e' r' ss
    | (e', r', .error m) => (e', r', .error m)

/-- Read samples with successive `next` calls until a clean end of input
(`Ok(false)`), collecting each reported triple.  The fuel only bounds the
recursion; the round-trip theorems always supply enough. -/
def readAll (data : List Nat) : SampleIndexIterator → Nat →
    Except String (List Sample)
  | _, 0 => .error "out of fuel"
  | it, fuel + 1 =>
    match it.next data with
    | .error e => .error e
    | .ok (false, _) => .ok []
    | .ok (true, it') =>
      match readAll data it' fuel with
      | .error e => .error e
      | .ok l => .ok (⟨it'.duration_90k, it'.bytes, it'.is_key⟩ :: l)

/-! ### C6: decoder error messages -/

/-- C6: the five error cases of `SampleIndexIterator::next` produce exactly
the messages the spec lists (S2): bad varint 1/2, zero duration before the
end, negative duration, non-positive bytes. -/
theorem iterator_error_messages :
    SampleIndexIterator.new.next [0x80] =
      .error "bad varint 1 at offset 0" ∧
    SampleIndexIterator.new.next [0x00, 0x80] =
      .error "bad varint 2 at offset 1" ∧
    SampleIndexIterator.new.next [0x00, 0x02, 0x00, 0x00] =
      .error "zero duration only allowed at end; have 2 bytes left" ∧
    SampleIndexIterator.new.next [0x02, 0x02] =
      .error "negative duration -1 after applying delta -1" ∧
    SampleIndexIterator.new.next [0x04, 0x00] =
      .error "non-positive bytes 0 after applying delta 0 to key=false frame at ts 0" := by
  refine ⟨?_, ?_, ?_, ?_, ?_⟩ <;> rfl

/-! ### C4 / C9: add_sample capacity error -/

/-- C4: `add_sample` fails exactly when the new cumulative duration exceeds
`MAX_RECORDING_DURATION` (a call hitting the limit exactly succeeds), and on
success the sample's two varints are appended to the index and the totals
are updated.  The range hypotheses keep the `i32` addition of the source
inside its type's range. -/
theorem add_sample_capacity (e : SampleIndexEncoder) (d b : Int) (k : Bool)
    (r : RecordingToInsert)
    (h1 : -2 ^ 31 ≤ r.duration_90k + d) (h2 : r.duration_90k + d < 2 ^ 31) :
    ((e.add_sample d b k r).2.2 = .ok () ↔
      r.duration_90k + d ≤ MAX_RECORDING_DURATION) ∧
    (r.duration_90k + d ≤ MAX_RECORDING_DURATION →
      (e.add_sample d b k r).2.1 = { r with
        duration_90k := r.duration_90k + d,
        sample_file_bytes := r.sample_file_bytes + b,
        video_samples := r.video_samples + 1,
        video_sync_samples := r.video_sync_samples + (if k then 1 else 0),
        video_index := r.video_index ++
          varintBytes (zigzag32 (d - e.prev_duration_90k) * 2 % 2 ^ 32 +
            (if k then 1 else 0)) ++
          varintBytes (zigzag32
            (b - (if k then e.prev_bytes_key else e.prev_bytes_nonkey))) }) := by
  by_cases hc : r.duration_90k + d > MAX_RECORDING_DURATION
  · constructor
    · simp [SampleIndexEncoder.add_sample, hc]
    · intro hle
      omega
  · cases k <;>
      simp [SampleIndexEncoder.add_sample, hc, append_varint32] <;>
      omega

/-- C4 witness: a call reaching `MAX_RECORDING_DURATION` exactly succeeds. -/
theorem add_sample_capacity_witness :
    (SampleIndexEncoder.new.add_sample 27000000 5 true RecordingToInsert.empty).2.2 =
      .ok () := by
  have h := add_sample_capacity SampleIndexEncoder.new 27000000 5 true
    RecordingToInsert.empty (by decide) (by decide)
  exact h.1.mpr (by decide)

/-- C9: on the capacity error, the row `r` is returned completely unchanged,
but the encoder's `prev_duration_90k` has already been overwritten with the
rejected sample's duration (the other encoder fields are untouched). -/
theorem add_sample_error_leaves_row (e : SampleIndexEncoder) (d b : Int)
    (k : Bool) (r : RecordingToInsert)
    (h : MAX_RECORDING_DURATION < r.duration_90k + d) :
    e.add_sample d b k r =
      ({ e with prev_duration_90k := d }, r,
        .error ("Duration " ++ toString (r.duration_90k + d) ++
          " exceeds maximum " ++ toString MAX_RECORDING_DURATION)) := by
  have hc : r.duration_90k + d > MAX_RECORDING_DURATION := h
  simp [SampleIndexEncoder.add_sample, hc]

/-- C9 witness: concrete rejected call; the row survives unchanged while the
encoder's `prev_duration_90k` is already 27000001. -/
theorem add_sample_error_leaves_row_witness :
    (SampleIndexEncoder.new.add_sample 27000001 5 false RecordingToInsert.empty).2.1 =
      RecordingToInsert.empty ∧
    (SampleIndexEncoder.new.add_sample 27000001 5 false RecordingToInsert.empty).1 =
      ⟨27000001, 0, 0⟩ := by
  have h := add_sample_error_leaves_row SampleIndexEncoder.new 27000001 5 false
    RecordingToInsert.empty (by decide)
  rw [h]
  exact ⟨rfl, rfl⟩

/-! ### Varint / zigzag laws (used by the round-trip development) -/

/-- Unfolding equation for `varintBytes`. -/
theorem varintBytes_eq (v : Nat) :
    varintBytes v =
      if v < 128 then [v] else (v % 128 + 128) :: varintBytes (v / 128) := by
  rw [varintBytes]
  split <;> simp_all

/-- A varint is at least one byte. -/
theorem varintBytes_length_pos (v : Nat) : 0 < (varintBytes v).length := by
  rw [varintBytes_eq]
  split <;> simp

/-- Values below `128^(k+1)` encode in at most `k+1` bytes. -/
theorem varintBytes_length_le (k : Nat) :
    ∀ v, v < 128 ^ (k + 1) → (varintBytes v).length ≤ k + 1 := by
  induction k with
  | zero =>
    intro v hv
    rw [varintBytes_eq, if_pos (by simpa using hv)]
    simp
  | succ k ih =>
    intro v hv
    rw [varintBytes_eq]
    split
    · simp
    · have hlt : v / 128 < 128 ^ (k + 1) := by
        rw [Nat.div_lt_iff_lt_mul (by omega)]
        calc v < 128 ^ (k + 2) := hv
        _ = 128 ^ (k + 1) * 128 := by ring
      simpa using ih (v / 128) hlt

/-- Decoding the varint of `v` from the front of any byte string recovers `v`
and consumes exactly the varint's bytes. -/
theorem decodeVarintList_encode (v : Nat) (rest : List Nat) :
    decodeVarintList (varintBytes v ++ rest) =
      some (v, (varintBytes v).length) := by
  induction v using Nat.strong_induction_on with
  | _ v ih =>
    rw [varintBytes_eq]
    split
    · next h => simp [decodeVarintList, h]
    · next h =>
      have hrec := ih (v / 128) (Nat.div_lt_self (by omega) (by omega))
      simp only [List.cons_append, decodeVarintList, if_neg (by omega : ¬ v % 128 + 128 < 128)]
      simp only [List.append_eq]
      rw [hrec]
      simp only [Option.some.injEq, Prod.mk.injEq, List.length_cons]
      exact ⟨by omega, trivial⟩

/-- `unzigzag32` undoes `zigzag32`. -/
theorem unzigzag32_zigzag32 (d : Int) : unzigzag32 (zigzag32 d) = d := by
  unfold zigzag32 unzigzag32
  split <;> split <;> omega

/-- Bound on `zigzag32` from a bound on the argument. -/
theorem zigzag32_le (d m : Int) (h1 : -m ≤ d) (h2 : d ≤ m) :
    (zigzag32 d : Int) ≤ 2 * m := by
  unfold zigzag32
  split <;> omega

/-- Packing a 31-bit offset with a flag bit: the source's
`(i2 as u32) | (bit << 31)` is plain addition when `i2 < 2^31`. -/
theorem lor_low_high (L b : Nat) (hL : L < 2 ^ 31) :
    L % 2 ^ 32 ||| b * 2 ^ 31 = L + b * 2 ^ 31 := by
  rw [Nat.mod_eq_of_lt (by omega), Nat.or_comm, Nat.mul_comm b (2 ^ 31),
    ← Nat.mul_add_lt_is_or hL b]
  omega

/-! ### Encoder-side characterization -/

/-- The two varints `add_sample` appends for sample `s` when the encoder's
previous duration / key bytes / non-key bytes are `pd` / `pk` / `pn`. -/
def encChunk (pd pk pn : Int) (s : Sample) : List Nat :=
  varintBytes (zigzag32 (s.duration_90k - pd) * 2 % 2 ^ 32 +
    (if s.is_key then 1 else 0)) ++
  varintBytes (zigzag32 (s.bytes - (if s.is_key then pk else pn)))

/-- The byte string produced by encoding `ss` starting from encoder state
`(pd, pk, pn)`. -/
def encList (pd pk pn : Int) : List Sample → List Nat
  | [] => []
  | s :: ss =>
    encChunk pd pk pn s ++
      encList s.duration_90k (if s.is_key then s.bytes else pk)
        (if s.is_key then pn else s.bytes) ss

/-- Total duration of a sample list. -/
def sumDur : List Sample → Int
  | [] => 0
  | s :: ss => s.duration_90k + sumDur ss

theorem sumDur_nonneg (ss : List Sample) (h : ∀ s ∈ ss, 0 ≤ s.duration_90k) :
    0 ≤ sumDur ss := by
  induction ss with
  | nil => simp [sumDur]
  | cons s ss ih =>
    have := h s (by simp)
    have := ih (fun x hx => h x (by simp [hx]))
    simp [sumDur]
    omega

/-- Explicit form of a successful `add_sample` call. -/
theorem add_sample_ok_eq (e : SampleIndexEncoder) (d b : Int) (k : Bool)
    (r : RecordingToInsert) (h : r.duration_90k + d ≤ MAX_RECORDING_DURATION) :
    e.add_sample d b k r =
      (⟨d, if k then b else e.prev_bytes_key,
          if k then e.prev_bytes_nonkey else b⟩,
       { r with duration_90k := r.duration_90k + d,
                sample_file_bytes := r.sample_file_bytes + b,
                video_samples := r.video_samples + 1,
                video_sync_samples := r.video_sync_samples + (if k then 1 else 0),
                video_index := r.video_index ++
                  encChunk e.prev_duration_90k e.prev_bytes_key
                    e.prev_bytes_nonkey ⟨d, b, k⟩ },
       .ok ()) := by
  have hc : ¬ r.duration_90k + d > MAX_RECORDING_DURATION := by omega
  cases k <;>
    simp [SampleIndexEncoder.add_sample, hc, encChunk, append_varint32,
      List.append_assoc]

/-- Successive `add_sample` calls on in-range samples all succeed and append
exactly `encList` of the samples to the index. -/
theorem addSamples_ok (ss : List Sample) :
    ∀ (pd pk pn : Int) (r : RecordingToInsert),
    0 ≤ r.duration_90k →
    r.duration_90k + sumDur ss ≤ MAX_RECORDING_DURATION →
    (∀ s ∈ ss, 0 ≤ s.duration_90k) →
    ∃ e' r', addSamples ⟨pd, pk, pn⟩ r ss = (e', r', .ok ()) ∧
      r'.video_index = r.video_index ++ encList pd pk pn ss ∧
      r'.duration_90k = r.duration_90k + sumDur ss := by
  induction ss with
  | nil =>
    intro pd pk pn r _ _ _
    exact ⟨⟨pd, pk, pn⟩, r, rfl, by simp [encList], by simp [sumDur]⟩
  | cons s ss ih =>
    intro pd pk pn r hr hsum hall
    have hd : 0 ≤ s.duration_90k := hall s (by simp)
    have hrest : ∀ x ∈ ss, 0 ≤ x.duration_90k := fun x hx => hall x (by simp [hx])
    have hsum0 : 0 ≤ sumDur ss := sumDur_nonneg ss hrest
    have hsd : sumDur (s :: ss) = s.duration_90k + sumDur ss := rfl
    have hstep : r.duration_90k + s.duration_90k ≤ MAX_RECORDING_DURATION := by
      omega
    obtain ⟨e', r', heq, hvi, hdur⟩ :=
      ih s.duration_90k (if s.is_key then s.bytes else pk)
        (if s.is_key then pn else s.bytes)
        { r with duration_90k := r.duration_90k + s.duration_90k,
                 sample_file_bytes := r.sample_file_bytes + s.bytes,
                 video_samples := r.video_samples + 1,
                 video_sync_samples := r.video_sync_samples +
                   (if s.is_key then 1 else 0),
                 video_index := r.video_index ++ encChunk pd pk pn s }
        (by simp; omega) (by simp; omega) hrest
    refine ⟨e', r', ?_, ?_, ?_⟩
    · show addSamples ⟨pd, pk, pn⟩ r (s :: ss) = (e', r', .ok ())
      simp only [addSamples]
      rw [add_sample_ok_eq ⟨pd, pk, pn⟩ s.duration_90k s.bytes s.is_key r hstep]
      convert heq using 3
    · rw [hvi]
      simp [encList, List.append_assoc]
    · rw [hdur]
      simp [sumDur]
      ring

/-! ### Decoder-side characterization: one `next` step over an encoded chunk -/

/-- Reading `next` at offset `pre.length` of a byte string whose next bytes
are `encChunk pd pk pn s` recovers exactly the sample `s`, provided the
iterator's fields agree with the encoder state `(pd, pk, pn)` that produced
the chunk and all values are in the ranges enforced by the encoder. -/
theorem next_encChunk (pre rest : List Nat) (it : SampleIndexIterator)
    (pd pk pn : Int) (s : Sample)
    (hi : it.i_and_is_key % 2 ^ 31 = pre.length)
    (hpre : pre.length + (encChunk pd pk pn s).length < 2 ^ 31)
    (hdur : it.duration_90k = pd)
    (hbytes : (match it.is_key with
      | true => (it.bytes, it.bytes_other)
      | false => (it.bytes_other, it.bytes)) = (pk, pn))
    (hpd : 0 ≤ pd) (hpd2 : pd ≤ MAX_RECORDING_DURATION)
    (hd : 0 ≤ s.duration_90k) (hd2 : s.duration_90k ≤ MAX_RECORDING_DURATION)
    (hzero : s.duration_90k = 0 → rest = [])
    (hb : 0 < s.bytes) :
    it.next (pre ++ (encChunk pd pk pn s ++ rest)) =
      .ok (true,
        ⟨pre.length + (encChunk pd pk pn s).length +
            (if s.is_key then 1 else 0) * 2 ^ 31,
         it.pos + it.bytes, it.start_90k + it.duration_90k,
         s.duration_90k, s.bytes,
         if s.is_key then pn else pk⟩) := by
  have hMAX : MAX_RECORDING_DURATION = 27000000 := by decide
  set Z1 := zigzag32 (s.duration_90k - pd) with hZ1
  set bit : Nat := if s.is_key then 1 else 0 with hbit
  set v2 := zigzag32 (s.bytes - (if s.is_key then pk else pn)) with hv2
  have hz1 : (Z1 : Int) ≤ 2 * 27000000 :=
    zigzag32_le (s.duration_90k - pd) 27000000 (by omega) (by omega)
  have hz1n : Z1 * 2 < 2 ^ 32 := by omega
  have hmod : Z1 * 2 % 2 ^ 32 = Z1 * 2 := Nat.mod_eq_of_lt hz1n
  set v1 := Z1 * 2 % 2 ^ 32 + bit with hv1
  have hchunk : encChunk pd pk pn s = varintBytes v1 ++ varintBytes v2 := rfl
  set data := pre ++ (encChunk pd pk pn s ++ rest) with hdata
  have hlen1 : 0 < (varintBytes v1).length := varintBytes_length_pos v1
  have hlen2 : 0 < (varintBytes v2).length := varintBytes_length_pos v2
  have hclen : (encChunk pd pk pn s).length =
      (varintBytes v1).length + (varintBytes v2).length := by
    rw [hchunk, List.length_append]
  have hdlen : data.length =
      pre.length + (encChunk pd pk pn s).length + rest.length := by
    rw [hdata]
    simp [List.length_append]
    omega
  have hdrop1 : data.drop pre.length =
      varintBytes v1 ++ (varintBytes v2 ++ rest) := by
    rw [hdata, List.drop_left, hchunk, List.append_assoc]
  have hdec1 : decode_varint32 data pre.length =
      some (v1, pre.length + (varintBytes v1).length) := by
    unfold decode_varint32
    rw [hdrop1, decodeVarintList_encode]
  have hdrop2 : data.drop (pre.length + (varintBytes v1).length) =
      varintBytes v2 ++ rest := by
    have h : data = (pre ++ varintBytes v1) ++ (varintBytes v2 ++ rest) := by
      rw [hdata, hchunk]
      simp [List.append_assoc]
    have hlen : (pre ++ varintBytes v1).length =
        pre.length + (varintBytes v1).length := by simp
    rw [h, ← hlen, List.drop_left]
  have hdec2 : decode_varint32 data (pre.length + (varintBytes v1).length) =
      some (v2, pre.length + (varintBytes v1).length +
        (varintBytes v2).length) := by
    unfold decode_varint32
    rw [hdrop2, decodeVarintList_encode]
  have hbitle : bit ≤ 1 := by rw [hbit]; split <;> omega
  have hv1div : v1 / 2 = Z1 := by omega
  have hv1mod : v1 % 2 = bit := by omega
  have hdelta : unzigzag32 (v1 / 2) = s.duration_90k - pd := by
    rw [hv1div, hZ1, unzigzag32_zigzag32]
  have hdelta2 : unzigzag32 v2 = s.bytes - (if s.is_key then pk else pn) := by
    rw [hv2, unzigzag32_zigzag32]
  have hi2 : pre.length + (varintBytes v1).length + (varintBytes v2).length =
      pre.length + (encChunk pd pk pn s).length := by omega
  simp only [SampleIndexIterator.next, hi, hdec1, hdec2]
  rw [if_neg (by omega)]
  rw [hdelta, hdur]
  rw [if_neg (by omega)]
  rw [if_neg (by
    rintro ⟨hz, hgt⟩
    have h0 : s.duration_90k = 0 := by omega
    have hr : rest = [] := hzero h0
    rw [hr] at hdlen
    simp at hdlen
    omega)]
  rw [hbytes]
  rw [hi2, hv1mod]
  rw [lor_low_high (pre.length + (encChunk pd pk pn s).length) bit (by omega)]
  have hkey : (decide ((pre.length + (encChunk pd pk pn s).length +
      bit * 2 ^ 31) / 2 ^ 31 % 2 = 1)) = s.is_key := by
    rw [hbit]
    cases s.is_key <;> simp <;> omega
  rw [hkey, hdelta2]
  cases hk : s.is_key <;> simp only [hk, if_true, if_false, Bool.false_eq_true,
    ite_true, ite_false] <;>
    rw [if_neg (by omega)] <;>
    simp only [Except.ok.injEq, Prod.mk.injEq, SampleIndexIterator.mk.injEq] <;>
    and_intros <;> first | trivial | omega

/-! ### Length bounds for encoded chunks -/

theorem encChunk_length_le (pd pk pn : Int) (s : Sample)
    (hpk : 0 ≤ pk) (hpk2 : pk < 2 ^ 31) (hpn : 0 ≤ pn) (hpn2 : pn < 2 ^ 31)
    (hb : 0 < s.bytes) (hb2 : s.bytes < 2 ^ 31) :
    (encChunk pd pk pn s).length ≤ 10 := by
  have h128 : (128 : Nat) ^ (4 + 1) = 34359738368 := by norm_num
  have hv1 : zigzag32 (s.duration_90k - pd) * 2 % 2 ^ 32 +
      (if s.is_key then 1 else 0) < 128 ^ (4 + 1) := by
    have := Nat.mod_lt (zigzag32 (s.duration_90k - pd) * 2)
      (y := 2 ^ 32) (by omega)
    split <;> omega
  have hv2b : (zigzag32 (s.bytes - (if s.is_key then pk else pn)) : Int) ≤
      2 * (2 ^ 31 - 1) := by
    apply zigzag32_le
    · split <;> omega
    · split <;> omega
  have hv2 : zigzag32 (s.bytes - (if s.is_key then pk else pn)) <
      128 ^ (4 + 1) := by omega
  have h1 := varintBytes_length_le 4 _ hv1
  have h2 := varintBytes_length_le 4 _ hv2
  unfold encChunk
  rw [List.length_append]
  omega

theorem encList_length_le (ss : List Sample) : ∀ (pd pk pn : Int),
    0 ≤ pk → pk < 2 ^ 31 → 0 ≤ pn → pn < 2 ^ 31 →
    (∀ s ∈ ss, 0 < s.bytes ∧ s.bytes < 2 ^ 31) →
    (encList pd pk pn ss).length ≤ 10 * ss.length := by
  induction ss with
  | nil => intro pd pk pn _ _ _ _ _; simp [encList]
  | cons s ss ih =>
    intro pd pk pn hpk hpk2 hpn hpn2 hall
    have hs := hall s (by simp)
    have hrest : ∀ x ∈ ss, 0 < x.bytes ∧ x.bytes < 2 ^ 31 :=
      fun x hx => hall x (by simp [hx])
    have h1 := encChunk_length_le pd pk pn s hpk hpk2 hpn hpn2 hs.1 hs.2
    have h2 := ih s.duration_90k (if s.is_key then s.bytes else pk)
      (if s.is_key then pn else s.bytes)
      (by split <;> omega) (by split <;> omega)
      (by split <;> omega) (by split <;> omega) hrest
    show (encChunk pd pk pn s ++ encList s.duration_90k _ _ ss).length ≤
      10 * (s :: ss).length
    rw [List.length_append]
    simp only [List.length_cons]
    omega

/-! ### Small list helpers -/

theorem mem_dropLast_cons {α : Type} (s : α) (ss : List α) (x : α)
    (hx : x ∈ ss.dropLast) : x ∈ (s :: ss).dropLast := by
  cases ss with
  | nil => simp at hx
  | cons a tl =>
    simp only [List.dropLast] at hx ⊢
    exact List.mem_cons_of_mem _ hx

theorem head_mem_dropLast_cons {α : Type} (s : α) (ss : List α)
    (h : ss ≠ []) : s ∈ (s :: ss).dropLast := by
  cases ss with
  | nil => exact absurd rfl h
  | cons a tl => simp [List.dropLast]

theorem decide_pack_bit (L : Nat) (b : Bool) (hL : L < 2 ^ 31) :
    decide ((L + (if b then 1 else 0) * 2 ^ 31) / 2 ^ 31 % 2 = 1) = b := by
  cases b <;> simp <;> omega

/-- `next` at the exact end of the input: clean `Ok(false)`. -/
theorem next_at_end (it : SampleIndexIterator) (data : List Nat)
    (h : it.i_and_is_key % 2 ^ 31 = data.length) :
    it.next data = .ok (false,
      ⟨it.i_and_is_key, it.pos + it.bytes, it.start_90k + it.duration_90k,
        it.duration_90k, it.bytes, it.bytes_other⟩) := by
  simp only [SampleIndexIterator.next, h, eq_self_iff_true, if_true]

/-- Unfolding `readAll` across one successful `next`. -/
theorem readAll_cons_step (data : List Nat) (it : SampleIndexIterator)
    (fuel : Nat) (it' : SampleIndexIterator)
    (h : it.next data = .ok (true, it')) :
    readAll data it (fuel + 1) =
      match readAll data it' fuel with
      | .error e => .error e
      | .ok l => .ok (⟨it'.duration_90k, it'.bytes, it'.is_key⟩ :: l) := by
  simp only [readAll, h]

/-! ### Decoder-side characterization: reading a whole encoded list -/

/-- Reading an encoded sample list from offset `pre.length` with a matching
iterator yields exactly the samples followed by a clean end of input. -/
theorem readAll_encList (ss : List Sample) :
    ∀ (pre : List Nat) (pd pk pn : Int) (it : SampleIndexIterator),
    it.i_and_is_key % 2 ^ 31 = pre.length →
    it.duration_90k = pd →
    (match it.is_key with
      | true => (it.bytes, it.bytes_other)
      | false => (it.bytes_other, it.bytes)) = (pk, pn) →
    0 ≤ pd → pd ≤ MAX_RECORDING_DURATION →
    0 ≤ pk → pk < 2 ^ 31 → 0 ≤ pn → pn < 2 ^ 31 →
    (∀ s ∈ ss, 0 ≤ s.duration_90k ∧ s.duration_90k ≤ MAX_RECORDING_DURATION ∧
      0 < s.bytes ∧ s.bytes < 2 ^ 31) →
    (∀ s ∈ ss.dropLast, 0 < s.duration_90k) →
    pre.length + (encList pd pk pn ss).length < 2 ^ 31 →
    readAll (pre ++ encList pd pk pn ss) it (ss.length + 1) = .ok ss := by
  induction ss with
  | nil =>
    intro pre pd pk pn it hi _ _ _ _ _ _ _ _ _ _ _
    have henc : encList pd pk pn [] = ([] : List Nat) := rfl
    rw [henc, List.append_nil]
    show readAll pre it (0 + 1) = .ok []
    simp only [readAll, next_at_end it pre hi]
  | cons s ss ih =>
    intro pre pd pk pn it hi hdur hbytes hpd hpd2 hpk hpk2 hpn hpn2 hall
      hdpos htot
    have hs := hall s (by simp)
    have hrest : ∀ x ∈ ss, 0 ≤ x.duration_90k ∧
        x.duration_90k ≤ MAX_RECORDING_DURATION ∧
        0 < x.bytes ∧ x.bytes < 2 ^ 31 :=
      fun x hx => hall x (by simp [hx])
    have hdrest : ∀ x ∈ ss.dropLast, 0 < x.duration_90k :=
      fun x hx => hdpos x (mem_dropLast_cons s ss x hx)
    have hlist : encList pd pk pn (s :: ss) =
        encChunk pd pk pn s ++
          encList s.duration_90k (if s.is_key then s.bytes else pk)
            (if s.is_key then pn else s.bytes) ss := rfl
    have hlen : (encList pd pk pn (s :: ss)).length =
        (encChunk pd pk pn s).length +
          (encList s.duration_90k (if s.is_key then s.bytes else pk)
            (if s.is_key then pn else s.bytes) ss).length := by
      rw [hlist, List.length_append]
    have hzero : s.duration_90k = 0 →
        encList s.duration_90k (if s.is_key then s.bytes else pk)
          (if s.is_key then pn else s.bytes) ss = [] := by
      intro h0
      cases hss : ss with
      | nil => rfl
      | cons a tl =>
        exfalso
        have := hdpos s (head_mem_dropLast_cons s ss (by simp [hss]))
        omega
    have hstep := next_encChunk pre
      (encList s.duration_90k (if s.is_key then s.bytes else pk)
        (if s.is_key then pn else s.bytes) ss) it pd pk pn s hi
      (by omega) hdur hbytes hpd hpd2 hs.1 hs.2.1 hzero hs.2.2.1
    have hik : (⟨pre.length + (encChunk pd pk pn s).length +
        (if s.is_key then 1 else 0) * 2 ^ 31,
        it.pos + it.bytes, it.start_90k + it.duration_90k,
        s.duration_90k, s.bytes,
        if s.is_key then pn else pk⟩ : SampleIndexIterator).is_key =
        s.is_key := by
      show decide _ = s.is_key
      exact decide_pack_bit _ s.is_key (by omega)
    have hIH := ih (pre ++ encChunk pd pk pn s) s.duration_90k
      (if s.is_key then s.bytes else pk) (if s.is_key then pn else s.bytes)
      ⟨pre.length + (encChunk pd pk pn s).length +
        (if s.is_key then 1 else 0) * 2 ^ 31,
        it.pos + it.bytes, it.start_90k + it.duration_90k,
        s.duration_90k, s.bytes,
        if s.is_key then pn else pk⟩
      (by simp only [List.length_append]; split <;> omega)
      rfl
      (by rw [hik]; cases hk : s.is_key <;> simp [hk])
      hs.1 hs.2.1
      (by split <;> omega) (by split <;> omega)
      (by split <;> omega) (by split <;> omega)
      hrest hdrest
      (by simp only [List.length_append]; omega)
    rw [List.append_assoc] at hIH
    show readAll (pre ++ encList pd pk pn (s :: ss)) it (ss.length + 1 + 1) =
      .ok (s :: ss)
    rw [hlist, readAll_cons_step _ _ (ss.length + 1) _ hstep, hIH]
    simp only [hik]

/-! ### C1: codec round trip -/

theorem le_sumDur (ss : List Sample) (h : ∀ x ∈ ss, 0 ≤ x.duration_90k) :
    ∀ s ∈ ss, s.duration_90k ≤ sumDur ss := by
  induction ss with
  | nil => simp
  | cons a tl ih =>
    intro s hs
    have ha : 0 ≤ a.duration_90k := h a (by simp)
    have htl : ∀ x ∈ tl, 0 ≤ x.duration_90k := fun x hx => h x (by simp [hx])
    have h0 : 0 ≤ sumDur tl := sumDur_nonneg tl htl
    rcases List.mem_cons.1 hs with rfl | hs'
    · simp [sumDur]; omega
    · have := ih htl s hs'
      simp [sumDur]; omega

theorem length_le_sumDur (ss : List Sample)
    (h : ∀ x ∈ ss, 0 ≤ x.duration_90k)
    (hp : ∀ x ∈ ss.dropLast, 0 < x.duration_90k) :
    (ss.length : Int) ≤ sumDur ss + 1 := by
  induction ss with
  | nil => simp [sumDur]
  | cons a tl ih =>
    have htl : ∀ x ∈ tl, 0 ≤ x.duration_90k := fun x hx => h x (by simp [hx])
    have hptl : ∀ x ∈ tl.dropLast, 0 < x.duration_90k :=
      fun x hx => hp x (mem_dropLast_cons a tl x hx)
    have hih := ih htl hptl
    cases htl' : tl with
    | nil =>
      have := h a (by simp)
      simp [sumDur, htl']
      omega
    | cons b tb =>
      have ha : 0 < a.duration_90k :=
        hp a (head_mem_dropLast_cons a tl (by simp [htl']))
      rw [htl'] at hih
      simp only [List.length_cons, sumDur] at hih ⊢
      push_cast at hih ⊢
      omega

/-- C1 (amended): for samples with positive `i32` bytes, non-negative
durations where only the final sample may have duration zero, and total
duration within `MAX_RECORDING_DURATION`, encoding through successive
`add_sample` calls succeeds and successive `next` calls on the resulting
`video_index` return exactly the same samples, after which `next` reports a
clean end of input. -/
theorem sample_index_round_trip (ss : List Sample)
    (hbytes : ∀ s ∈ ss, 0 < s.bytes ∧ s.bytes < 2 ^ 31)
    (hdur : ∀ s ∈ ss, 0 ≤ s.duration_90k)
    (hpos : ∀ s ∈ ss.dropLast, 0 < s.duration_90k)
    (hsum : sumDur ss ≤ MAX_RECORDING_DURATION) :
    ∃ e' r',
      addSamples SampleIndexEncoder.new RecordingToInsert.empty ss =
        (e', r', .ok ()) ∧
      readAll r'.video_index SampleIndexIterator.new (ss.length + 1) =
        .ok ss := by
  obtain ⟨e', r', heq, hvi, _⟩ :=
    addSamples_ok ss 0 0 0 RecordingToInsert.empty (by simp [RecordingToInsert.empty])
      (by simp [RecordingToInsert.empty]; omega) hdur
  refine ⟨e', r', heq, ?_⟩
  have hvi' : r'.video_index = encList 0 0 0 ss := by
    rw [hvi]; rfl
  have hMAX : MAX_RECORDING_DURATION = 27000000 := by decide
  have hlen1 := encList_length_le ss 0 0 0 (by omega) (by omega) (by omega)
    (by omega) hbytes
  have hlen2 := length_le_sumDur ss hdur hpos
  have hlen3 : ss.length ≤ 27000001 := by omega
  have hall : ∀ s ∈ ss, 0 ≤ s.duration_90k ∧
      s.duration_90k ≤ MAX_RECORDING_DURATION ∧
      0 < s.bytes ∧ s.bytes < 2 ^ 31 := by
    intro s hs
    have h1 := hdur s hs
    have h2 := le_sumDur ss hdur s hs
    have h3 := hbytes s hs
    exact ⟨h1, by omega, h3.1, h3.2⟩
  have hread := readAll_encList ss [] 0 0 0 SampleIndexIterator.new rfl rfl rfl
    (by omega) (by omega) (by omega) (by omega) (by omega) (by omega)
    hall hpos (by simp; omega)
  rw [hvi']
  simpa using hread

/-- C1 witness: round trip on a concrete two-sample sequence. -/
theorem sample_index_round_trip_witness :
    ∃ e' r',
      addSamples SampleIndexEncoder.new RecordingToInsert.empty
        [⟨10, 1000, true⟩, ⟨9, 10, false⟩] = (e', r', .ok ()) ∧
      readAll r'.video_index SampleIndexIterator.new 3 =
        .ok [⟨10, 1000, true⟩, ⟨9, 10, false⟩] :=
  sample_index_round_trip [⟨10, 1000, true⟩, ⟨9, 10, false⟩]
    (by decide) (by decide) (by decide) (by decide)

/-- C1 counterexample: `[(0,1,key),(1,1,key)]` has positive bytes and
non-negative cumulative duration and both `add_sample` calls succeed, yet
decoding the encoded index errors out (zero duration before the end) rather
than returning the sequence. -/
theorem sample_index_round_trip_cex :
    (addSamples SampleIndexEncoder.new RecordingToInsert.empty
        [⟨0, 1, true⟩, ⟨1, 1, true⟩]).2.2 = .ok () ∧
    (addSamples SampleIndexEncoder.new RecordingToInsert.empty
        [⟨0, 1, true⟩, ⟨1, 1, true⟩]).2.1.video_index = [1, 2, 5, 0] ∧
    readAll [1, 2, 5, 0] SampleIndexIterator.new 3 =
      .error "zero duration only allowed at end; have 2 bytes left" := by
  have ht2 : Int.toNat 2 = 2 := rfl
  have h1 : varintBytes 1 = [1] := by rw [varintBytes_eq]; simp
  have h2 : varintBytes 2 = [2] := by rw [varintBytes_eq]; simp
  have h5 : varintBytes 5 = [5] := by rw [varintBytes_eq]; simp
  have h0 : varintBytes 0 = [0] := by rw [varintBytes_eq]; simp
  refine ⟨?_, ?_, rfl⟩ <;>
    norm_num [addSamples, SampleIndexEncoder.add_sample, append_varint32,
      zigzag32, MAX_RECORDING_DURATION, RecordingToInsert.empty,
      SampleIndexEncoder.new, ht2, h1, h2, h5, h0]

/-! ### recording.rs: Segment -/

/-- The fields of `db::ListRecordingsRow` consumed by `Segment::new`
(`db.rs` is not among the sources; field list modelled from the spec's
Recording row, §3). -/
structure RecRow where
  duration_90k : Int
  sample_file_bytes : Int
  video_samples : Int
  video_sync_samples : Int
  video_sample_entry_id : Int
  flags : Int
deriving Repr, DecidableEq

/-- `struct Segment` (src/db/recording.rs).  `frames`/`key_frames` are `u16`
in the source (casts modelled with `% 65536`); the packed
`video_sample_entry_id_and_trailing_zero` `i32` is modelled as its two
components, exactly what `video_sample_entry_id()` and
`have_trailing_zero()` extract. -/
structure Segment where
  beginIt : Option SampleIndexIterator
  file_end : Int
  desired_start : Int
  desired_end : Int
  frames : Nat
  key_frames : Nat
  video_sample_entry_id : Int
  trailing_zero : Bool
deriving Repr, DecidableEq

/-- The `loop { ... }` of `Segment::new`'s slow path (src/db/recording.rs),
with the mutated locals (`it`, `begin`, `self_.frames`, `self_.key_frames`)
passed explicitly.  The fuel only bounds the recursion (each decoded sample
consumes at least two index bytes, so `data.length + 1` always suffices);
exhaustion cannot occur on the inputs of the theorems below. -/
def segLoop (data : List Nat) (startT endT : Int) :
    Nat → SampleIndexIterator → SampleIndexIterator → Nat → Nat →
    Except String (SampleIndexIterator × Nat × Nat × SampleIndexIterator)
  | 0, _, _, _, _ => .error "segment loop out of fuel"
  | fuel + 1, it, beginIt, frames, key_frames =>
    let beginIt := if it.start_90k ≤ startT ∧ it.is_key then it else beginIt
    let frames := if it.start_90k ≤ startT ∧ it.is_key then 0 else frames
    let key_frames := if it.start_90k ≤ startT ∧ it.is_key then 0 else key_frames
    if it.start_90k ≥ endT ∧ frames > 0 then
      .ok (beginIt, frames, key_frames, it)
    else
      let frames := frames + 1
      let key_frames := key_frames + (if it.is_key then 1 else 0)
      match it.next data with
      | .error e => .error e
      | .ok (false, it') => .ok (beginIt, frames, key_frames, it')
      | .ok (true, it') => segLoop data startT endT fuel it' beginIt frames key_frames

/-- `Segment::new(db, recording, desired_range_90k)` (src/db/recording.rs).
The `db.with_recording_playback` lookup is modelled by passing the
recording's `video_index` bytes directly as `data`. -/
def segmentNew (row : RecRow) (data : List Nat) (a b : Int) :
    Except String Segment :=
  if a > b ∨ b > row.duration_90k then
    .error ("desired range [" ++ toString a ++ ", " ++ toString b ++
      ") invalid for recording of length " ++ toString row.duration_90k)
  else if a = 0 ∧ b = row.duration_90k then
    .ok { beginIt := none, file_end := row.sample_file_bytes,
          desired_start := a, desired_end := b,
          frames := (row.video_samples % 65536).toNat,
          key_frames := (row.video_sync_samples % 65536).toNat,
          video_sample_entry_id := row.video_sample_entry_id,
          trailing_zero := row.flags % 2 = 1 }
  else
    match SampleIndexIterator.new.next data with
    | .error e => .error e
    | .ok (false, _) => .error "no index"
    | .ok (true, it1) =>
      if ¬ it1.is_key then .error "not key frame"
      else
        let end_90k := if b = row.duration_90k then 2147483647 else b
        match segLoop data a end_90k (data.length + 1) it1
          SampleIndexIterator.new (row.video_samples % 65536).toNat
          (row.video_sync_samples % 65536).toNat with
        | .error e => .error e
        | .ok (beginIt, frames, key_frames, itf) =>
          .ok { beginIt := some beginIt, file_end := itf.pos,
                desired_start := a, desired_end := b,
                frames := frames, key_frames := key_frames,
                video_sample_entry_id := row.video_sample_entry_id,
                trailing_zero := itf.duration_90k = 0 }

/-! ### Abstract view of the segment loop -/

/-- The `(start_90k, is_key)` stream of a sample list starting at time `t`. -/
def streamFrom (t : Int) : List Sample → List (Int × Bool)
  | [] => []
  | s :: ss => (t, s.is_key) :: streamFrom (t + s.duration_90k) ss

/-- The segment loop's effect on `(begin, frames, key_frames)`, phrased on
the abstract `(start, is_key)` stream. -/
def absLoop (startT endT : Int) :
    List (Int × Bool) → ((Int × Bool) × Nat × Nat) → ((Int × Bool) × Nat × Nat)
  | [], acc => acc
  | (st, k) :: rest, acc =>
    let acc1 := if st ≤ startT ∧ k then ((st, k), 0, 0) else acc
    if st ≥ endT ∧ acc1.2.1 > 0 then acc1
    else absLoop startT endT rest (acc1.1, acc1.2.1 + 1,
      acc1.2.2 + (if k then 1 else 0))

theorem streamFrom_ge (ss : List Sample) : ∀ (t : Int),
    (∀ x ∈ ss, 0 ≤ x.duration_90k) →
    ∀ p ∈ streamFrom t ss, t ≤ p.1 := by
  induction ss with
  | nil => intro t _ p hp; simp [streamFrom] at hp
  | cons s ss ih =>
    intro t hall p hp
    have hs : 0 ≤ s.duration_90k := hall s (by simp)
    rcases List.mem_cons.1 hp with rfl | hp'
    · simp
    · have := ih (t + s.duration_90k)
        (fun x hx => hall x (by simp [hx])) p hp'
      omega

theorem streamFrom_pairwise (ss : List Sample) : ∀ (t : Int),
    (∀ x ∈ ss, 0 ≤ x.duration_90k) →
    (∀ x ∈ ss.dropLast, 0 < x.duration_90k) →
    List.Pairwise (fun p q : Int × Bool => p.1 < q.1) (streamFrom t ss) := by
  induction ss with
  | nil => intro t _ _; simp [streamFrom]
  | cons s ss ih =>
    intro t hall hpos
    have htl : ∀ x ∈ ss, 0 ≤ x.duration_90k := fun x hx => hall x (by simp [hx])
    have hptl : ∀ x ∈ ss.dropLast, 0 < x.duration_90k :=
      fun x hx => hpos x (mem_dropLast_cons s ss x hx)
    refine List.Pairwise.cons ?_ (ih (t + s.duration_90k) htl hptl)
    intro q hq
    have hge := streamFrom_ge ss (t + s.duration_90k) htl q hq
    have hd : 0 < s.duration_90k := by
      cases hss : ss with
      | nil => rw [hss] at hq; simp [streamFrom] at hq
      | cons b tb => exact hpos s (head_mem_dropLast_cons s ss (by simp [hss]))
    simp
    omega

/-- Invariant analysis of `absLoop` with a zero-width window
(`startT = endT = a`): once the accumulator holds a key candidate at or
before `a` with at least one counted frame, the final accumulator holds the
most recent key candidate at or before `a`, still with at least one frame. -/
theorem absLoop_props (a : Int) (l : List (Int × Bool)) :
    ∀ (acc : (Int × Bool) × Nat × Nat),
    acc.1.2 = true → acc.1.1 ≤ a → 1 ≤ acc.2.1 →
    List.Pairwise (fun p q : Int × Bool => p.1 < q.1) l →
    (∀ p ∈ l, p.2 = true → p.1 ≤ a → acc.1.1 < p.1) →
    (absLoop a a l acc).1.2 = true ∧
    (absLoop a a l acc).1.1 ≤ a ∧
    1 ≤ (absLoop a a l acc).2.1 ∧
    ((absLoop a a l acc).1.1 = acc.1.1 ∨ ((absLoop a a l acc).1.1, true) ∈ l) ∧
    (∀ p ∈ l, p.2 = true → p.1 ≤ a → p.1 ≤ (absLoop a a l acc).1.1) ∧
    acc.1.1 ≤ (absLoop a a l acc).1.1 := by
  induction l with
  | nil =>
    intro acc h1 h2 h3 _ _
    exact ⟨h1, h2, h3, Or.inl rfl, by simp, le_refl _⟩
  | cons hd rest ih =>
    intro acc h1 h2 h3 hpw hfut
    obtain ⟨st, k⟩ := hd
    have hpw' : List.Pairwise (fun p q : Int × Bool => p.1 < q.1) rest :=
      (List.pairwise_cons.1 hpw).2
    have hhd : ∀ q ∈ rest, st < q.1 := by
      intro q hq
      exact (List.pairwise_cons.1 hpw).1 q hq
    by_cases hcand : st ≤ a ∧ k = true
    · -- candidate: begin := (st, k), frames reset; break check fails (frames 0)
      have hk : k = true := hcand.2
      have habs : absLoop a a ((st, k) :: rest) acc =
          absLoop a a rest ((st, k), 0 + 1, 0 + (if k then 1 else 0)) := by
        simp only [absLoop]
        rw [show (if st ≤ a ∧ k = true then ((st, k), 0, 0) else acc) =
          ((st, k), 0, 0) from if_pos hcand]
        rw [if_neg (by simp)]
      rw [habs]
      have hrec := ih ((st, k), 0 + 1, 0 + (if k then 1 else 0))
        (by simpa using hk) (by simpa using hcand.1) (by simp) hpw'
        (by intro p hp _ _; exact hhd p hp)
      refine ⟨hrec.1, hrec.2.1, hrec.2.2.1, ?_, ?_, ?_⟩
      · rcases hrec.2.2.2.1 with h | h
        · exact Or.inr (by rw [h]; simp [hk])
        · exact Or.inr (List.mem_cons_of_mem _ h)
      · intro p hp hpk hpa
        rcases List.mem_cons.1 hp with rfl | hp'
        · simpa using hrec.2.2.2.2.2
        · exact hrec.2.2.2.2.1 p hp' hpk hpa
      · have hlt : acc.1.1 < st := hfut (st, k) (by simp) hk hcand.1
        have hge := hrec.2.2.2.2.2
        simp only [] at hge
        omega
    · -- not a candidate: accumulator survives
      have hacc1 : (if st ≤ a ∧ k = true then ((st, k), 0, 0) else acc) = acc :=
        if_neg hcand
      by_cases hbrk : st ≥ a ∧ acc.2.1 > 0
      · -- break: return acc unchanged
        have habs : absLoop a a ((st, k) :: rest) acc = acc := by
          simp only [absLoop]
          rw [hacc1, if_pos hbrk]
        rw [habs]
        refine ⟨h1, h2, h3, Or.inl rfl, ?_, le_refl _⟩
        intro p hp hpk hpa
        rcases List.mem_cons.1 hp with rfl | hp'
        · exact absurd ⟨hpa, hpk⟩ hcand
        · have := hhd p hp'
          omega
      · -- continue with frames + 1
        have habs : absLoop a a ((st, k) :: rest) acc =
            absLoop a a rest (acc.1, acc.2.1 + 1,
              acc.2.2 + (if k then 1 else 0)) := by
          simp only [absLoop]
          rw [hacc1, if_neg hbrk]
        rw [habs]
        have hrec := ih (acc.1, acc.2.1 + 1, acc.2.2 + (if k then 1 else 0))
          h1 h2 (by simp) hpw'
          (by intro p hp hpk hpa; exact hfut p (by simp [hp]) hpk hpa)
        refine ⟨hrec.1, hrec.2.1, hrec.2.2.1, ?_, ?_, hrec.2.2.2.2.2⟩
        · rcases hrec.2.2.2.1 with h | h
          · exact Or.inl h
          · exact Or.inr (List.mem_cons_of_mem _ h)
        · intro p hp hpk hpa
          rcases List.mem_cons.1 hp with rfl | hp'
          · exact absurd ⟨hpa, hpk⟩ hcand
          · exact hrec.2.2.2.2.1 p hp' hpk hpa


/-- The segment loop refines `absLoop`: running `segLoop` over the encoding
of the current sample's successors computes exactly the abstract loop over
the `(start, is_key)` stream, and the final `begin` iterator's start/key
agree with the abstract begin. -/
theorem segLoop_abs (ss : List Sample) :
    ∀ (s : Sample) (pre : List Nat) (pk pn : Int)
      (it bIt : SampleIndexIterator) (fr kf : Nat)
      (startT endT : Int) (fuel : Nat),
    ss.length + 1 ≤ fuel →
    it.i_and_is_key % 2 ^ 31 = pre.length →
    it.duration_90k = s.duration_90k →
    it.bytes = s.bytes →
    it.is_key = s.is_key →
    (match it.is_key with
      | true => (it.bytes, it.bytes_other)
      | false => (it.bytes_other, it.bytes)) = (pk, pn) →
    0 ≤ s.duration_90k → s.duration_90k ≤ MAX_RECORDING_DURATION →
    0 ≤ pk → pk < 2 ^ 31 → 0 ≤ pn → pn < 2 ^ 31 →
    (∀ x ∈ ss, 0 ≤ x.duration_90k ∧ x.duration_90k ≤ MAX_RECORDING_DURATION ∧
      0 < x.bytes ∧ x.bytes < 2 ^ 31) →
    (∀ x ∈ ss.dropLast, 0 < x.duration_90k) →
    pre.length + (encList s.duration_90k pk pn ss).length < 2 ^ 31 →
    ∃ B F K itf,
      segLoop (pre ++ encList s.duration_90k pk pn ss) startT endT fuel
          it bIt fr kf = .ok (B, F, K, itf) ∧
      ((B.start_90k, B.is_key), F, K) =
        absLoop startT endT
          ((it.start_90k, s.is_key) ::
            streamFrom (it.start_90k + s.duration_90k) ss)
          ((bIt.start_90k, bIt.is_key), fr, kf) := by
  induction ss with
  | nil =>
    intro s pre pk pn it bIt fr kf startT endT fuel hfuel hi hdur hby hik
      hpair hd hd2 hpk hpk2 hpn hpn2 hall hdpos htot
    obtain ⟨f, rfl⟩ : ∃ f, fuel = f + 1 := ⟨fuel - 1, by omega⟩
    have hdata : pre ++ encList s.duration_90k pk pn [] = pre := by
      simp [encList]
    rw [hdata]
    by_cases hcandS : it.start_90k ≤ startT ∧ it.is_key = true
    · have hcandA : it.start_90k ≤ startT ∧ s.is_key = true := by
        rw [← hik]; exact hcandS
      simp only [segLoop, if_pos hcandS, next_at_end it pre hi,
        gt_iff_lt, lt_self_iff_false, and_false, if_false,
        absLoop, streamFrom, if_pos hcandA]
      refine ⟨_, _, _, _, rfl, ?_⟩
      simp [hik]
    · have hcandA : ¬ (it.start_90k ≤ startT ∧ s.is_key = true) := by
        rw [← hik]; exact hcandS
      by_cases hbrk : it.start_90k ≥ endT ∧ fr > 0
      · simp only [segLoop, if_neg hcandS, absLoop, streamFrom,
          if_neg hcandA, if_pos hbrk]
        exact ⟨bIt, fr, kf, it, rfl, rfl⟩
      · simp only [segLoop, if_neg hcandS, next_at_end it pre hi,
          absLoop, streamFrom, if_neg hcandA, if_neg hbrk]
        refine ⟨_, _, _, _, rfl, ?_⟩
        simp [hik]
  | cons x xs ih =>
    intro s pre pk pn it bIt fr kf startT endT fuel hfuel hi hdur hby hik
      hpair hd hd2 hpk hpk2 hpn hpn2 hall hdpos htot
    obtain ⟨f, rfl⟩ : ∃ f, fuel = f + 1 := ⟨fuel - 1, by omega⟩
    have hx := hall x (by simp)
    have hrest : ∀ y ∈ xs, 0 ≤ y.duration_90k ∧
        y.duration_90k ≤ MAX_RECORDING_DURATION ∧
        0 < y.bytes ∧ y.bytes < 2 ^ 31 :=
      fun y hy => hall y (by simp [hy])
    have hdrest : ∀ y ∈ xs.dropLast, 0 < y.duration_90k :=
      fun y hy => hdpos y (mem_dropLast_cons x xs y hy)
    have hlist : encList s.duration_90k pk pn (x :: xs) =
        encChunk s.duration_90k pk pn x ++
          encList x.duration_90k (if x.is_key then x.bytes else pk)
            (if x.is_key then pn else x.bytes) xs := rfl
    have hlen : (encList s.duration_90k pk pn (x :: xs)).length =
        (encChunk s.duration_90k pk pn x).length +
          (encList x.duration_90k (if x.is_key then x.bytes else pk)
            (if x.is_key then pn else x.bytes) xs).length := by
      rw [hlist, List.length_append]
    have hzero : x.duration_90k = 0 →
        encList x.duration_90k (if x.is_key then x.bytes else pk)
          (if x.is_key then pn else x.bytes) xs = [] := by
      intro h0
      cases hss : xs with
      | nil => rfl
      | cons a tl =>
        exfalso
        have := hdpos x (head_mem_dropLast_cons x xs (by simp [hss]))
        omega
    have hstep := next_encChunk pre
      (encList x.duration_90k (if x.is_key then x.bytes else pk)
        (if x.is_key then pn else x.bytes) xs) it s.duration_90k pk pn x hi
      (by omega) hdur hpair hd hd2 hx.1 hx.2.1 hzero hx.2.2.1
    set it2 : SampleIndexIterator :=
      ⟨pre.length + (encChunk s.duration_90k pk pn x).length +
        (if x.is_key then 1 else 0) * 2 ^ 31,
       it.pos + it.bytes, it.start_90k + it.duration_90k,
       x.duration_90k, x.bytes,
       if x.is_key then pn else pk⟩ with hit2
    have hik2 : it2.is_key = x.is_key := by
      show decide _ = x.is_key
      exact decide_pack_bit _ x.is_key (by omega)
    have hi2 : it2.i_and_is_key % 2 ^ 31 =
        (pre ++ encChunk s.duration_90k pk pn x).length := by
      rw [hit2]
      simp only [List.length_append]
      cases x.is_key <;> simp <;> omega
    have hpair2 : (match it2.is_key with
        | true => (it2.bytes, it2.bytes_other)
        | false => (it2.bytes_other, it2.bytes)) =
        (if x.is_key then x.bytes else pk, if x.is_key then pn else x.bytes) := by
      rw [hik2, hit2]
      cases x.is_key <;> simp
    have ihx : ∀ (bIt' : SampleIndexIterator) (fr' kf' : Nat),
        ∃ B F K itf,
        segLoop (pre ++ (encChunk s.duration_90k pk pn x ++
            encList x.duration_90k (if x.is_key then x.bytes else pk)
              (if x.is_key then pn else x.bytes) xs)) startT endT f
          it2 bIt' fr' kf' = .ok (B, F, K, itf) ∧
        ((B.start_90k, B.is_key), F, K) =
          absLoop startT endT
            ((it2.start_90k, x.is_key) ::
              streamFrom (it2.start_90k + x.duration_90k) xs)
            ((bIt'.start_90k, bIt'.is_key), fr', kf') := by
      intro bIt' fr' kf'
      have h := ih x (pre ++ encChunk s.duration_90k pk pn x)
        (if x.is_key then x.bytes else pk) (if x.is_key then pn else x.bytes)
        it2 bIt' fr' kf' startT endT f (by simp at hfuel ⊢; omega)
        hi2 rfl rfl hik2 hpair2 hx.1 hx.2.1
        (by split <;> omega) (by split <;> omega)
        (by split <;> omega) (by split <;> omega)
        hrest hdrest
        (by simp only [List.length_append]; omega)
      rw [List.append_assoc] at h
      exact h
    rw [hlist]
    by_cases hcandS : it.start_90k ≤ startT ∧ it.is_key = true
    · have hcandA : it.start_90k ≤ startT ∧ s.is_key = true := by
        rw [← hik]; exact hcandS
      obtain ⟨B, F, K, itf, hseg, habs⟩ :=
        ihx it (0 + 1) (0 + (if it.is_key then 1 else 0))
      refine ⟨B, F, K, itf, ?_, ?_⟩
      · simp only [segLoop, if_pos hcandS, gt_iff_lt, lt_self_iff_false,
          and_false, if_false, hstep]
        exact hseg
      · rw [habs]
        simp only [absLoop, streamFrom, if_pos hcandA, gt_iff_lt,
          lt_self_iff_false, and_false, if_false]
        simp [hdur, hik]
    · have hcandA : ¬ (it.start_90k ≤ startT ∧ s.is_key = true) := by
        rw [← hik]; exact hcandS
      by_cases hbrk : it.start_90k ≥ endT ∧ fr > 0
      · refine ⟨bIt, fr, kf, it, ?_, ?_⟩
        · simp only [segLoop, if_neg hcandS, if_pos hbrk]
        · simp only [absLoop, streamFrom, if_neg hcandA, if_pos hbrk]
      · obtain ⟨B, F, K, itf, hseg, habs⟩ :=
          ihx bIt (fr + 1) (kf + (if it.is_key then 1 else 0))
        refine ⟨B, F, K, itf, ?_, ?_⟩
        · simp only [segLoop, if_neg hcandS, if_neg hbrk, hstep]
          exact hseg
        · rw [habs]
          simp only [absLoop, streamFrom, if_neg hcandA, if_neg hbrk]
          simp [hdur, hik]

/-- Each sample encodes to at least one byte per varint. -/
theorem encList_length_ge (ss : List Sample) : ∀ (pd pk pn : Int),
    ss.length ≤ (encList pd pk pn ss).length := by
  induction ss with
  | nil => intro pd pk pn; simp [encList]
  | cons s ss ih =>
    intro pd pk pn
    have h1 := varintBytes_length_pos (zigzag32 (s.duration_90k - pd) * 2 %
      2 ^ 32 + (if s.is_key then 1 else 0))
    have h2 := varintBytes_length_pos
      (zigzag32 (s.bytes - (if s.is_key then pk else pn)))
    have h3 := ih s.duration_90k (if s.is_key then s.bytes else pk)
      (if s.is_key then pn else s.bytes)
    show (s :: ss).length ≤ (encChunk pd pk pn s ++ encList _ _ _ ss).length
    rw [List.length_append]
    unfold encChunk
    rw [List.length_append]
    simp only [List.length_cons]
    omega

/-- C5 (amended): `Segment::new` rejects `a > b` or `b > duration_90k`; for
an in-bounds zero-width range `0 ≤ a = b < duration_90k` over a well-formed
recording (first sample a key frame), the segment starts at the most recent
key frame at or before `a` and contains at least one frame (not always
exactly one: non-key frames between that key frame and `a` are included). -/
theorem segment_new_rejects_and_zero_width :
    (∀ (row : RecRow) (data : List Nat) (a b : Int),
      a > b ∨ b > row.duration_90k →
      segmentNew row data a b = .error ("desired range [" ++ toString a ++
        ", " ++ toString b ++ ") invalid for recording of length " ++
        toString row.duration_90k)) ∧
    (∀ (s0 : Sample) (ss : List Sample) (row : RecRow) (a : Int),
      s0.is_key = true →
      (∀ x ∈ s0 :: ss, 0 < x.bytes ∧ x.bytes < 2 ^ 31) →
      (∀ x ∈ s0 :: ss, 0 ≤ x.duration_90k) →
      (∀ x ∈ (s0 :: ss).dropLast, 0 < x.duration_90k) →
      sumDur (s0 :: ss) ≤ MAX_RECORDING_DURATION →
      row.duration_90k = sumDur (s0 :: ss) →
      0 ≤ a → a < sumDur (s0 :: ss) →
      ∃ seg B,
        segmentNew row (encList 0 0 0 (s0 :: ss)) a a = .ok seg ∧
        seg.beginIt = some B ∧
        1 ≤ seg.frames ∧
        B.is_key = true ∧ B.start_90k ≤ a ∧
        (B.start_90k, true) ∈ streamFrom 0 (s0 :: ss) ∧
        (∀ p ∈ streamFrom 0 (s0 :: ss), p.2 = true → p.1 ≤ a →
          p.1 ≤ B.start_90k)) := by
  constructor
  · intro row data a b h
    simp only [segmentNew, if_pos h]
  · intro s0 ss row a hkey hbytes hdur hdpos hsum hrow ha0 halt
    have hMAX : MAX_RECORDING_DURATION = 27000000 := by decide
    have hs0 := hbytes s0 (by simp)
    have hd0 := hdur s0 (by simp)
    have htlb : ∀ x ∈ ss, 0 < x.bytes ∧ x.bytes < 2 ^ 31 :=
      fun x hx => hbytes x (by simp [hx])
    have htld : ∀ x ∈ ss, 0 ≤ x.duration_90k :=
      fun x hx => hdur x (by simp [hx])
    have htldp : ∀ x ∈ ss.dropLast, 0 < x.duration_90k :=
      fun x hx => hdpos x (mem_dropLast_cons s0 ss x hx)
    have hsum0 : 0 ≤ sumDur ss := sumDur_nonneg ss htld
    have hsd : sumDur (s0 :: ss) = s0.duration_90k + sumDur ss := rfl
    -- length bookkeeping
    have hlenle := encList_length_le (s0 :: ss) 0 0 0 (by omega) (by omega)
      (by omega) (by omega) hbytes
    have hlenub := length_le_sumDur (s0 :: ss) hdur hdpos
    have hcap : (s0 :: ss).length ≤ 27000001 := by
      simp only [List.length_cons] at hlenub ⊢
      omega
    have htot : (encList 0 0 0 (s0 :: ss)).length < 2 ^ 31 := by
      have : (10 : Nat) * (s0 :: ss).length ≤ 10 * 27000001 := by omega
      omega
    -- the encoding of the list, with the first sample's chunk split off
    have hdata : encList 0 0 0 (s0 :: ss) =
        encChunk 0 0 0 s0 ++ encList s0.duration_90k s0.bytes 0 ss := by
      show encChunk 0 0 0 s0 ++
          encList s0.duration_90k (if s0.is_key then s0.bytes else 0)
            (if s0.is_key then 0 else s0.bytes) ss = _
      rw [hkey]
      simp
    have hlensplit : (encList 0 0 0 (s0 :: ss)).length =
        (encChunk 0 0 0 s0).length +
          (encList s0.duration_90k s0.bytes 0 ss).length := by
      rw [hdata, List.length_append]
    -- the first `next` call
    have hzero0 : s0.duration_90k = 0 →
        encList s0.duration_90k s0.bytes 0 ss = [] := by
      intro h0
      cases hss : ss with
      | nil => rfl
      | cons b tb =>
        exfalso
        have := hdpos s0 (head_mem_dropLast_cons s0 ss (by simp [hss]))
        omega
    have hd0ub : s0.duration_90k ≤ MAX_RECORDING_DURATION := by
      have := le_sumDur (s0 :: ss) hdur s0 (by simp)
      omega
    have hfirst0 := next_encChunk []
      (encList s0.duration_90k s0.bytes 0 ss) SampleIndexIterator.new
      0 0 0 s0 rfl (by simp only [List.length_nil]; omega) rfl rfl
      (by omega) (by omega) hd0 hd0ub hzero0 hs0.1
    rw [List.nil_append] at hfirst0
    set it1 : SampleIndexIterator :=
      ⟨[].length + (encChunk 0 0 0 s0).length +
          (if s0.is_key then 1 else 0) * 2 ^ 31,
        SampleIndexIterator.new.pos + SampleIndexIterator.new.bytes,
        SampleIndexIterator.new.start_90k + SampleIndexIterator.new.duration_90k,
        s0.duration_90k, s0.bytes,
        if s0.is_key then (0 : Int) else 0⟩ with hit1
    have hfirst : SampleIndexIterator.new.next (encList 0 0 0 (s0 :: ss)) =
        .ok (true, it1) := by
      rw [hdata]
      exact hfirst0
    have hik1 : it1.is_key = s0.is_key := by
      show decide _ = s0.is_key
      exact decide_pack_bit _ s0.is_key (by simp only [List.length_nil]; omega)
    have hi1 : it1.i_and_is_key % 2 ^ 31 = (encChunk 0 0 0 s0).length := by
      rw [hit1]
      simp only [List.length_nil]
      cases s0.is_key <;> simp <;> omega
    have hpair1 : (match it1.is_key with
        | true => (it1.bytes, it1.bytes_other)
        | false => (it1.bytes_other, it1.bytes)) = (s0.bytes, 0) := by
      rw [hik1, hkey, hit1]
      simp
    have htlall : ∀ x ∈ ss, 0 ≤ x.duration_90k ∧
        x.duration_90k ≤ MAX_RECORDING_DURATION ∧
        0 < x.bytes ∧ x.bytes < 2 ^ 31 := by
      intro x hx
      have h1 := htld x hx
      have h2 := le_sumDur (s0 :: ss) hdur x (by simp [hx])
      have h3 := htlb x hx
      exact ⟨h1, by omega, h3.1, h3.2⟩
    have hfuelb : ss.length + 1 ≤ (encList 0 0 0 (s0 :: ss)).length + 1 := by
      have := encList_length_ge (s0 :: ss) 0 0 0
      simp only [List.length_cons] at this
      omega
    obtain ⟨B, F, K, itf, hseg, habs⟩ := segLoop_abs ss s0
      (encChunk 0 0 0 s0) s0.bytes 0 it1 SampleIndexIterator.new
      (row.video_samples % 65536).toNat (row.video_sync_samples % 65536).toNat
      a a ((encList 0 0 0 (s0 :: ss)).length + 1) hfuelb hi1 rfl rfl hik1
      hpair1 hd0 hd0ub (by omega) (by omega) (by omega) (by omega)
      htlall htldp (by omega)
    have hseg' : segLoop (encList 0 0 0 (s0 :: ss)) a a
        ((encList 0 0 0 (s0 :: ss)).length + 1) it1 SampleIndexIterator.new
        (row.video_samples % 65536).toNat (row.video_sync_samples % 65536).toNat =
        .ok (B, F, K, itf) := by
      rw [hdata]
      rw [← hdata] at hseg
      rw [hdata] at hseg
      exact hseg
    -- abstract analysis
    have hpw := streamFrom_pairwise ss (0 + s0.duration_90k) htld htldp
    have hfut : ∀ p ∈ streamFrom (0 + s0.duration_90k) ss,
        p.2 = true → p.1 ≤ a → (0 : Int) < p.1 := by
      intro p hp _ _
      have hge := streamFrom_ge ss (0 + s0.duration_90k) htld p hp
      have hpos0 : 0 < s0.duration_90k := by
        cases hss : ss with
        | nil => rw [hss] at hp; simp [streamFrom] at hp
        | cons b tb =>
          exact hdpos s0 (head_mem_dropLast_cons s0 ss (by simp [hss]))
      omega
    have hprops := absLoop_props a (streamFrom (0 + s0.duration_90k) ss)
      ((0, true), 0 + 1, 0 + (if s0.is_key then 1 else 0)) rfl ha0 (by simp)
      hpw hfut
    -- relate the refinement's absLoop call to the analyzed one
    have habs2 : absLoop a a
        ((it1.start_90k, s0.is_key) ::
          streamFrom (it1.start_90k + s0.duration_90k) ss)
        ((SampleIndexIterator.new.start_90k, SampleIndexIterator.new.is_key),
          (row.video_samples % 65536).toNat,
          (row.video_sync_samples % 65536).toNat) =
        absLoop a a (streamFrom (0 + s0.duration_90k) ss)
          ((0, true), 0 + 1, 0 + (if s0.is_key then 1 else 0)) := by
      have hst : it1.start_90k = 0 := by rw [hit1]; rfl
      rw [hst]
      simp only [absLoop]
      rw [show (if (0 : Int) ≤ a ∧ s0.is_key = true then
          (((0 : Int), s0.is_key), 0, 0)
          else ((SampleIndexIterator.new.start_90k,
            SampleIndexIterator.new.is_key),
            (row.video_samples % 65536).toNat,
            (row.video_sync_samples % 65536).toNat)) =
          (((0 : Int), s0.is_key), 0, 0) from if_pos ⟨ha0, hkey⟩]
      rw [if_neg (by simp)]
      simp [hkey]
    rw [habs2] at habs
    set A := absLoop a a (streamFrom (0 + s0.duration_90k) ss)
      ((0, true), 0 + 1, 0 + (if s0.is_key then 1 else 0)) with hA
    have hBst : B.start_90k = A.1.1 := by
      have := congrArg (fun t => t.1.1) habs
      simpa using this
    have hBk : B.is_key = A.1.2 := by
      have := congrArg (fun t => t.1.2) habs
      simpa using this
    have hF : F = A.2.1 := by
      have := congrArg (fun t => t.2.1) habs
      simpa using this
    -- final evaluation of segmentNew
    have hcond1 : ¬ (a > a ∨ a > row.duration_90k) := by rw [hrow]; omega
    have hcond2 : ¬ (a = 0 ∧ a = row.duration_90k) := by
      rw [hrow]
      rintro ⟨h1, h2⟩
      omega
    have hcond3 : ¬ (a = row.duration_90k) := by rw [hrow]; omega
    have hkeychk : ¬ ¬ it1.is_key = true := by simp [hik1, hkey]
    refine ⟨⟨some B, itf.pos, a, a, F, K, row.video_sample_entry_id,
      itf.duration_90k = 0⟩, B, ?_, rfl, ?_, ?_, ?_, ?_, ?_⟩
    · simp only [segmentNew, if_neg hcond1, if_neg hcond2, hfirst,
        if_neg hkeychk, if_neg hcond3, hseg']
    · rw [hF]
      exact hprops.2.2.1
    · rw [hBk]
      exact hprops.1
    · rw [hBst]
      exact hprops.2.1
    · rw [hBst]
      rcases hprops.2.2.2.1 with h | h
      · rw [h]
        show ((0 : Int), true) ∈ streamFrom 0 (s0 :: ss)
        have : streamFrom 0 (s0 :: ss) =
            (0, s0.is_key) :: streamFrom (0 + s0.duration_90k) ss := rfl
        rw [this, hkey]
        simp
      · show (A.1.1, true) ∈ streamFrom 0 (s0 :: ss)
        have hstr : streamFrom 0 (s0 :: ss) =
            (0, s0.is_key) :: streamFrom (0 + s0.duration_90k) ss := rfl
        rw [hstr]
        exact List.mem_cons_of_mem _ h
    · intro p hp hpk hpa
      rw [hBst]
      have hstr : streamFrom 0 (s0 :: ss) =
          (0, s0.is_key) :: streamFrom (0 + s0.duration_90k) ss := rfl
      rw [hstr] at hp
      rcases List.mem_cons.1 hp with rfl | hp'
      · have := hprops.2.2.2.2.2
        simpa using this
      · exact hprops.2.2.2.2.1 p hp' hpk hpa

/-- C5 witness: a rejected range and a concrete zero-width range. -/
theorem segment_new_rejects_and_zero_width_witness :
    segmentNew ⟨3, 3, 3, 1, 7, 0⟩ [5, 2, 0, 2, 0, 0] 4 2 =
      .error ("desired range [" ++ toString (4 : Int) ++ ", " ++
        toString (2 : Int) ++ ") invalid for recording of length " ++
        toString (3 : Int)) ∧
    (∃ seg B,
      segmentNew ⟨3, 3, 3, 1, 7, 0⟩
          (encList 0 0 0 [⟨1, 1, true⟩, ⟨1, 1, false⟩, ⟨1, 1, false⟩]) 1 1 =
        .ok seg ∧
      seg.beginIt = some B ∧ 1 ≤ seg.frames ∧ B.is_key = true ∧
      B.start_90k ≤ 1 ∧
      (B.start_90k, true) ∈
        streamFrom 0 [⟨1, 1, true⟩, ⟨1, 1, false⟩, ⟨1, 1, false⟩] ∧
      (∀ p ∈ streamFrom 0 [⟨1, 1, true⟩, ⟨1, 1, false⟩, ⟨1, 1, false⟩],
        p.2 = true → p.1 ≤ 1 → p.1 ≤ B.start_90k)) := by
  constructor
  · exact segment_new_rejects_and_zero_width.1 ⟨3, 3, 3, 1, 7, 0⟩
      [5, 2, 0, 2, 0, 0] 4 2 (by norm_num)
  · exact segment_new_rejects_and_zero_width.2 ⟨1, 1, true⟩
      [⟨1, 1, false⟩, ⟨1, 1, false⟩] ⟨3, 3, 3, 1, 7, 0⟩ 1 rfl
      (by decide) (by decide) (by decide) (by decide) rfl
      (by decide) (by decide)

/-- C5 counterexample: for the recording encoded from
`[(1,1,key),(1,1,non-key),(1,1,non-key)]` the in-bounds zero-width range
`[2, 2)` yields a segment with `frames = 2`, not exactly one frame: the
non-key frame between the most recent key frame and `a` is included. -/
theorem segment_new_zero_width_cex :
    encList 0 0 0 [⟨1, 1, true⟩, ⟨1, 1, false⟩, ⟨1, 1, false⟩] =
      [5, 2, 0, 2, 0, 0] ∧
    ∃ seg, segmentNew ⟨3, 3, 3, 1, 7, 0⟩ [5, 2, 0, 2, 0, 0] 2 2 = .ok seg ∧
      seg.frames = 2 := by
  constructor
  · have h5 : varintBytes 5 = [5] := by rw [varintBytes_eq]; simp
    have h2 : varintBytes 2 = [2] := by rw [varintBytes_eq]; simp
    have h0 : varintBytes 0 = [0] := by rw [varintBytes_eq]; simp
    have ht2 : Int.toNat 2 = 2 := rfl
    norm_num [encList, encChunk, zigzag32, h5, h2, h0, ht2]
  · exact ⟨_, rfl, rfl⟩

/-! ### writer.rs: ClockAdjuster -/

/-- `struct ClockAdjuster` (src/db/writer.rs). -/
structure ClockAdjuster where
  every_minus_1 : Int
  ndir : Int
  cur : Int
deriving Repr, DecidableEq

/-- `ClockAdjuster::new(local_time_delta)` (src/db/writer.rs).  The guarded
match arms become nested conditionals in the same order; `i32::max_value()`
is `2147483647`.  The divisions only run on positive operands, where Rust's
truncating division agrees with `Int` division. -/
def ClockAdjuster.new (local_time_delta : Option Int) : ClockAdjuster :=
  let p : Int × Int :=
    match local_time_delta with
    | some d =>
      if d ≤ -2700 then (1999, 1)
      else if d ≥ 2700 then (1999, -1)
      else if d < -60 then (60 * 90000 / (-d) - 1, 1)
      else if d > 60 then (60 * 90000 / d - 1, -1)
      else (2147483647, 0)
    | none => (2147483647, 0)
  ⟨p.1, p.2, 0⟩

/-- The `while` loop of `ClockAdjuster::adjust`.  The fuel only bounds the
recursion: every adjuster built by `new` has `every_minus_1 ≥ 0`, and then
each iteration decreases `cur` by `every_minus_1 + 1 ≥ 1`, so the
`(cur - every_minus_1).toNat` fuel supplied by `adjust` always suffices. -/
def adjustLoop (e n : Int) : Nat → Int → Int → Int × Int
  | 0, val, cur => (val, cur)
  | fuel + 1, val, cur =>
    if cur > e ∧ val > n then adjustLoop e n fuel (val - n) (cur - (e + 1))
    else (val, cur)

/-- `ClockAdjuster::adjust(&mut self, val)` (src/db/writer.rs). -/
def ClockAdjuster.adjust (a : ClockAdjuster) (val : Int) : Int × ClockAdjuster :=
  let cur := a.cur + val
  let r := adjustLoop a.every_minus_1 a.ndir (cur - a.every_minus_1).toNat val cur
  (r.1, { a with cur := r.2 })

/-- Feeding `m` inputs of 3000 ticks through `adjust`, totalling the
outputs. -/
def feedTotal : ClockAdjuster → Nat → Int × ClockAdjuster
  | a, 0 => (0, a)
  | a, m + 1 =>
    let r := a.adjust 3000
    let rest := feedTotal r.2 m
    (r.1 + rest.1, rest.2)

/-- Characterization of the adjust loop: with `e ≥ 0` and enough fuel, it
reduces `cur` into `[0, e]` by repeated subtraction of `e + 1`, bumping
`val` by `-n` each time — i.e. Euclidean division — provided the
`val > ndir` guard never binds. -/
theorem adjustLoop_char (e n : Int) (he : 0 ≤ e) :
    ∀ (fuel : Nat) (val cur : Int),
    0 ≤ cur →
    cur - e ≤ fuel →
    ((n = -1 ∧ 0 ≤ val) ∨ (n = 0 ∧ 0 < val) ∨ (n = 1 ∧ cur / (e + 1) < val)) →
    adjustLoop e n fuel val cur = (val - n * (cur / (e + 1)), cur % (e + 1)) := by
  intro fuel
  induction fuel with
  | zero =>
    intro val cur hc hf hg
    have hlt : cur < e + 1 := by omega
    have hdiv : cur / (e + 1) = 0 := Int.ediv_eq_zero_of_lt hc hlt
    have hmod : cur % (e + 1) = cur := Int.emod_eq_of_lt hc hlt
    simp [adjustLoop, hdiv, hmod]
  | succ fuel ih =>
    intro val cur hc hf hg
    have hpos : (0 : Int) < e + 1 := by omega
    by_cases hguard : cur > e ∧ val > n
    · have hc' : 0 ≤ cur - (e + 1) := by omega
      have hf' : cur - (e + 1) - e ≤ fuel := by omega
      have hdiv : (cur - (e + 1)) / (e + 1) = cur / (e + 1) - 1 := by
        rw [show cur - (e + 1) = cur + (-1) * (e + 1) by ring]
        rw [Int.add_mul_ediv_right _ _ (by omega : (e + 1) ≠ 0)]
        ring
      have hmod : (cur - (e + 1)) % (e + 1) = cur % (e + 1) := by
        rw [show cur - (e + 1) = cur + (e + 1) * (-1) by ring]
        rw [Int.add_mul_emod_self_left]
      have hk1 : 1 ≤ cur / (e + 1) := by
        rw [Int.le_ediv_iff_mul_le hpos]
        omega
      have hg' : (n = -1 ∧ 0 ≤ val - n) ∨ (n = 0 ∧ 0 < val - n) ∨
          (n = 1 ∧ (cur - (e + 1)) / (e + 1) < val - n) := by
        rcases hg with ⟨h1, h2⟩ | ⟨h1, h2⟩ | ⟨h1, h2⟩
        · exact Or.inl ⟨h1, by omega⟩
        · exact Or.inr (Or.inl ⟨h1, by omega⟩)
        · exact Or.inr (Or.inr ⟨h1, by rw [hdiv]; omega⟩)
      have hrec := ih (val - n) (cur - (e + 1)) hc' hf' hg'
      simp only [adjustLoop, if_pos hguard, hrec, hdiv, hmod]
      rw [Prod.mk.injEq]
      exact ⟨by ring, rfl⟩
    · have hcur : cur ≤ e := by
        rcases hg with ⟨h1, h2⟩ | ⟨h1, h2⟩ | ⟨h1, h2⟩
        · omega
        · omega
        · by_contra hcon
          have hk1 : 1 ≤ cur / (e + 1) := by
            rw [Int.le_ediv_iff_mul_le hpos]
            omega
          omega
      have hdiv : cur / (e + 1) = 0 := Int.ediv_eq_zero_of_lt hc (by omega)
      have hmod : cur % (e + 1) = cur := Int.emod_eq_of_lt hc (by omega)
      simp [adjustLoop, if_neg hguard, hdiv, hmod]

/-- Characterization of feeding `m` frames of 3000 ticks: the total output
is the total input adjusted by `ndir` once per `every_minus_1 + 1` ticks of
accumulated input, i.e. by the Euclidean quotient. -/
theorem feedTotal_char (e n : Int) (he : 1999 ≤ e)
    (hn : n = -1 ∨ n = 0 ∨ n = 1) :
    ∀ (m : Nat) (cur : Int), 0 ≤ cur → cur ≤ e →
    feedTotal ⟨e, n, cur⟩ m =
      (3000 * m - n * ((cur + 3000 * m) / (e + 1)),
        ⟨e, n, (cur + 3000 * m) % (e + 1)⟩) := by
  intro m
  induction m with
  | zero =>
    intro cur hc hce
    have hdiv : cur / (e + 1) = 0 := Int.ediv_eq_zero_of_lt hc (by omega)
    have hmod : cur % (e + 1) = cur := Int.emod_eq_of_lt hc (by omega)
    simp [feedTotal, hdiv, hmod]
  | succ m ih =>
    intro cur hc hce
    have hpos : (0 : Int) < e + 1 := by omega
    have hk3 : (cur + 3000) / (e + 1) < 3 := by
      rw [Int.ediv_lt_iff_lt_mul hpos]
      omega
    have hk0 : 0 ≤ (cur + 3000) / (e + 1) :=
      Int.ediv_nonneg (by omega) (by omega)
    have hloop := adjustLoop_char e n (by omega) (cur + 3000 - e).toNat 3000
      (cur + 3000)
      (by omega) (by omega)
      (by rcases hn with rfl | rfl | rfl
          · exact Or.inl ⟨rfl, by omega⟩
          · exact Or.inr (Or.inl ⟨rfl, by omega⟩)
          · exact Or.inr (Or.inr ⟨rfl, by omega⟩))
    have hadj : ClockAdjuster.adjust ⟨e, n, cur⟩ 3000 =
        (3000 - n * ((cur + 3000) / (e + 1)),
          ⟨e, n, (cur + 3000) % (e + 1)⟩) := by
      simp only [ClockAdjuster.adjust, hloop]
    have hcur' : 0 ≤ (cur + 3000) % (e + 1) := Int.emod_nonneg _ (by omega)
    have hcur'2 : (cur + 3000) % (e + 1) ≤ e := by
      have := Int.emod_lt_of_pos (cur + 3000) hpos
      omega
    have hih := ih ((cur + 3000) % (e + 1)) hcur' hcur'2
    have hdivsum : ((cur + 3000) % (e + 1) + 3000 * m) / (e + 1) =
        (cur + 3000 * (m + 1)) / (e + 1) - (cur + 3000) / (e + 1) := by
      rw [Int.emod_def]
      rw [show cur + 3000 - (e + 1) * ((cur + 3000) / (e + 1)) + 3000 * m =
        (cur + 3000 * (m + 1)) + (-((cur + 3000) / (e + 1))) * (e + 1) by
        ring]
      rw [Int.add_mul_ediv_right _ _ (by omega : (e + 1) ≠ 0)]
      ring
    have hmodsum : ((cur + 3000) % (e + 1) + 3000 * m) % (e + 1) =
        (cur + 3000 * (m + 1)) % (e + 1) := by
      rw [Int.emod_add_emod]
      congr 1
      ring
    simp only [feedTotal, hadj, hih]
    rw [Prod.mk.injEq]
    constructor
    · rw [hdivsum]
      push_cast
      ring
    · simp only [ClockAdjuster.mk.injEq]
      refine ⟨trivial, trivial, ?_⟩
      rw [hmodsum]
      norm_cast

/-- `ClockAdjuster::new` for deltas in `(60, 2700]`: rate `-1` every
`5400000 / d` ticks (the `d ≥ 2700` cap coincides with the formula at
`d = 2700`). -/
theorem clockAdjuster_new_pos (d : Int) (h1 : 60 < d) (h2 : d ≤ 2700) :
    ClockAdjuster.new (some d) = ⟨5400000 / d - 1, -1, 0⟩ := by
  simp only [ClockAdjuster.new]
  rw [if_neg (by omega)]
  by_cases hcap : d ≥ 2700
  · have hd : d = 2700 := by omega
    subst hd
    norm_num
  · rw [if_neg hcap, if_neg (by omega), if_pos (by omega)]
    norm_num

/-- `ClockAdjuster::new` for deltas in `[-2700, -60)`: rate `+1` every
`5400000 / (-d)` ticks. -/
theorem clockAdjuster_new_neg (d : Int) (h1 : d < -60) (h2 : -2700 ≤ d) :
    ClockAdjuster.new (some d) = ⟨5400000 / (-d) - 1, 1, 0⟩ := by
  simp only [ClockAdjuster.new]
  by_cases hcap : d ≤ -2700
  · have hd : d = -2700 := by omega
    subst hd
    norm_num
  · rw [if_neg hcap, if_neg (by omega), if_pos (by omega)]
    norm_num

/-- `ClockAdjuster::new` is disabled for `|d| ≤ 60` and for `None`. -/
theorem clockAdjuster_new_disabled (d : Int) (h1 : -60 ≤ d) (h2 : d ≤ 60) :
    ClockAdjuster.new (some d) = ⟨2147483647, 0, 0⟩ := by
  simp only [ClockAdjuster.new]
  rw [if_neg (by omega), if_neg (by omega), if_neg (by omega),
    if_neg (by omega)]

/-- C2 (amended): for `delta` with `60 < |delta| ≤ 2700`, feeding 1800
inputs of 3000 ticks (total `S = 5,400,000`) through
`ClockAdjuster::new(Some(delta)).adjust` yields a total within ±1 of
`S + delta`.  (For `|delta| ≤ 60` the adjuster is disabled and the total is
exactly `S`.) -/
theorem clock_adjuster_uncorrected_total (d : Int)
    (h1 : 60 < d ∨ d < -60) (h2 : -2700 ≤ d) (h3 : d ≤ 2700) :
    -1 ≤ (feedTotal (ClockAdjuster.new (some d)) 1800).1 - (5400000 + d) ∧
    (feedTotal (ClockAdjuster.new (some d)) 1800).1 - (5400000 + d) ≤ 1 := by
  rcases h1 with hpos | hneg
  · rw [clockAdjuster_new_pos d hpos h3]
    set m := (5400000 : Int) / d with hm
    have hd0 : (0 : Int) < d := by omega
    have hm2000 : 2000 ≤ m := by
      rw [hm, Int.le_ediv_iff_mul_le hd0]
      omega
    have hfeed := feedTotal_char (m - 1) (-1) (by omega) (Or.inl rfl) 1800 0
      (by omega) (by omega)
    rw [show m - 1 + 1 = m by ring] at hfeed
    have hmul : m * d ≤ 5400000 := by
      have h := Int.ediv_mul_le (5400000 : Int) (show d ≠ 0 by omega)
      rw [← hm] at h
      exact h
    have hrem : 5400000 - d < m * d := by
      have h := Int.emod_lt_of_pos (5400000 : Int) hd0
      rw [Int.emod_def, ← hm] at h
      nlinarith
    have hK1 : d ≤ 5400000 / m := by
      rw [Int.le_ediv_iff_mul_le (by omega : (0 : Int) < m)]
      nlinarith
    have hK2 : 5400000 / m < d + 2 := by
      rw [Int.ediv_lt_iff_lt_mul (by omega : (0 : Int) < m)]
      nlinarith
    simp only [hfeed]
    norm_num
    constructor <;> linarith
  · rw [clockAdjuster_new_neg d hneg h2]
    set m := (5400000 : Int) / (-d) with hm
    have hd0 : (0 : Int) < -d := by omega
    have hm2000 : 2000 ≤ m := by
      rw [hm, Int.le_ediv_iff_mul_le hd0]
      omega
    have hfeed := feedTotal_char (m - 1) 1 (by omega) (Or.inr (Or.inr rfl))
      1800 0 (by omega) (by omega)
    rw [show m - 1 + 1 = m by ring] at hfeed
    have hmul : m * (-d) ≤ 5400000 := by
      have h := Int.ediv_mul_le (5400000 : Int) (show -d ≠ 0 by omega)
      rw [← hm] at h
      exact h
    have hrem : 5400000 - (-d) < m * (-d) := by
      have h := Int.emod_lt_of_pos (5400000 : Int) hd0
      rw [Int.emod_def, ← hm] at h
      nlinarith
    have hK1 : -d ≤ 5400000 / m := by
      rw [Int.le_ediv_iff_mul_le (by omega : (0 : Int) < m)]
      nlinarith
    have hK2 : 5400000 / m < -d + 2 := by
      rw [Int.ediv_lt_iff_lt_mul (by omega : (0 : Int) < m)]
      nlinarith
    simp only [hfeed]
    norm_num
    constructor <;> linarith

/-- C2 witness: a concrete delta of 540 (100 ppm). -/
theorem clock_adjuster_uncorrected_total_witness :
    -1 ≤ (feedTotal (ClockAdjuster.new (some 540)) 1800).1 - (5400000 + 540) ∧
    (feedTotal (ClockAdjuster.new (some 540)) 1800).1 - (5400000 + 540) ≤ 1 :=
  clock_adjuster_uncorrected_total 540 (Or.inl (by norm_num)) (by norm_num)
    (by norm_num)

/-- C2 counterexample: for `delta = 60` (within the claim's `[-2700, 2700]`)
the adjuster is disabled, so the 1800-frame total is exactly `S`, which is
60 ticks — not at most 1 — away from `S + delta`. -/
theorem clock_adjuster_total_cex :
    (feedTotal (ClockAdjuster.new (some 60)) 1800).1 = 5400000 ∧
    ¬ (-1 ≤ (feedTotal (ClockAdjuster.new (some 60)) 1800).1 -
          (5400000 + 60) ∧
        (feedTotal (ClockAdjuster.new (some 60)) 1800).1 -
          (5400000 + 60) ≤ 1) := by
  have h1 : ClockAdjuster.new (some 60) = ⟨2147483647, 0, 0⟩ :=
    clockAdjuster_new_disabled 60 (by norm_num) (by norm_num)
  have hfeed := feedTotal_char 2147483647 0 (by norm_num)
    (Or.inr (Or.inl rfl)) 1800 0 (by norm_num) (by norm_num)
  have ht : (feedTotal (ClockAdjuster.new (some 60)) 1800).1 = 5400000 := by
    rw [h1]
    simp only [hfeed]
    norm_num
  refine ⟨ht, ?_⟩
  rw [ht]
  norm_num

/-! ### writer.rs: Writer per-frame state (unflushed sample) -/

/-- Rust's wrapping `as i32` cast of an `i64`. -/
def wrap32 (x : Int) : Int := (x + 2 ^ 31) % 2 ^ 32 - 2 ^ 31

theorem wrap32_eq_self (x : Int) (h1 : -2 ^ 31 ≤ x) (h2 : x < 2 ^ 31) :
    wrap32 x = x := by
  unfold wrap32
  rw [Int.emod_eq_of_lt (by omega) (by omega)]
  omega

/-- `struct UnflushedSample` (src/db/writer.rs). -/
structure UnflushedSample where
  local_time : Int
  pts_90k : Int
  len : Int
  is_key : Bool
deriving Repr, DecidableEq

/-- The state of `InnerWriter` (src/db/writer.rs) mutated by the per-frame
logic.  The file handle, SHA-1 hasher and recording id are not modelled:
`write`'s disk writes are retried forever and do not touch this state. -/
structure InnerWriter where
  r : RecordingToInsert
  e : SampleIndexEncoder
  completed_live_segment_off_90k : Int
  local_start : Int
  adjuster : ClockAdjuster
  unflushed_sample : Option UnflushedSample

/-- `InnerWriter::add_sample` (src/db/writer.rs): append to the index and
update `local_start` / provisional `start`, returning the new total
duration. -/
def InnerWriter.add_sample (w : InnerWriter) (duration_90k bytes : Int)
    (is_key : Bool) (pkt_local_time : Int) : InnerWriter × Except String Int :=
  match w.e.add_sample duration_90k bytes is_key w.r with
  | (e', r', .error m) => ({ w with e := e', r := r' }, .error m)
  | (e', r', .ok ()) =>
    let new := pkt_local_time - r'.duration_90k
    let local_start := min w.local_start new
    let r'' := if r'.run_offset = 0 then { r' with start := local_start } else r'
    ({ w with e := e', r := r'', local_start := local_start }, .ok r'.duration_90k)

/-- `Writer::write` (src/db/writer.rs) on an open writer: flush the held
sample into the index (restoring it on every error path), then hold the new
sample.  `(pts_90k - unflushed.pts_90k as i64) as i32` is the wrapping
`wrap32`.  The disk write of `pkt` (retried forever) and the live-segment
channel send are not modelled; `pkt.len()` is passed as `pktLen`. -/
def writeFrame (w : InnerWriter) (pktLen local_time pts_90k : Int)
    (is_key : Bool) : InnerWriter × Except String Unit :=
  match w.unflushed_sample with
  | some unflushed =>
    let duration := wrap32 (pts_90k - unflushed.pts_90k)
    if duration ≤ 0 then
      ({ w with unflushed_sample := some unflushed },
        .error ("pts not monotonically increasing; got " ++
          toString unflushed.pts_90k ++ " then " ++ toString pts_90k))
    else
      let adj := w.adjuster.adjust duration
      let w1 := { w with adjuster := adj.2 }
      match w1.add_sample adj.1 unflushed.len unflushed.is_key
          unflushed.local_time with
      | (w', .error m) =>
        ({ w' with unflushed_sample := some unflushed }, .error m)
      | (w', .ok d) =>
        let w'' := if is_key
          then { w' with completed_live_segment_off_90k := d } else w'
        let held : UnflushedSample := ⟨local_time, pts_90k, pktLen, is_key⟩
        ({ w'' with unflushed_sample := some held }, .ok ())
  | none =>
    let held : UnflushedSample := ⟨local_time, pts_90k, pktLen, is_key⟩
    ({ w with unflushed_sample := some held }, .ok ())

/-- **C8** (corrected): on an open writer holding unflushed sample `u`, the
monotonicity test is on the *i32-wrapped* difference `wrap32 (pts - u.pts)`:
(1) if that is non-positive, `write` fails with the exact message and leaves
the writer untouched, still holding `u`; (2) whenever the difference fits in
an `i32` the wrapped test coincides with the claim's `pts - u.pts ≤ 0`;
(3) on every exit the writer holds some unflushed sample, and on every error
exit it is exactly `u`. -/
theorem writer_write_unflushed (w : InnerWriter) (u : UnflushedSample)
    (pktLen local_time pts_90k : Int) (is_key : Bool)
    (hw : w.unflushed_sample = some u) :
    (wrap32 (pts_90k - u.pts_90k) ≤ 0 →
      writeFrame w pktLen local_time pts_90k is_key =
        (w, Except.error ("pts not monotonically increasing; got " ++
          toString u.pts_90k ++ " then " ++ toString pts_90k))) ∧
    (-2 ^ 31 ≤ pts_90k - u.pts_90k → pts_90k - u.pts_90k < 2 ^ 31 →
      (wrap32 (pts_90k - u.pts_90k) ≤ 0 ↔ pts_90k - u.pts_90k ≤ 0)) ∧
    (∀ ow res, writeFrame w pktLen local_time pts_90k is_key = (ow, res) →
      ow.unflushed_sample.isSome = true ∧
      ∀ m, res = Except.error m → ow.unflushed_sample = some u) := by
  obtain ⟨r, e, c, ls, adj, us⟩ := w
  simp only at hw
  subst hw
  refine ⟨?_, ?_, ?_⟩
  · intro hle
    simp only [writeFrame]
    rw [if_pos hle]
  · intro h1 h2
    rw [wrap32_eq_self _ h1 h2]
  · intro ow res h
    simp only [writeFrame] at h
    split at h
    · obtain ⟨h1, h2⟩ := Prod.mk.injEq _ _ _ _ |>.mp h
      subst h1; subst h2
      exact ⟨rfl, fun m _ => rfl⟩
    · split at h
      · obtain ⟨h1, h2⟩ := Prod.mk.injEq _ _ _ _ |>.mp h
        subst h1; subst h2
        exact ⟨rfl, fun m _ => rfl⟩
      · obtain ⟨h1, h2⟩ := Prod.mk.injEq _ _ _ _ |>.mp h
        subst h1; subst h2
        exact ⟨rfl, fun m hm => absurd hm (by simp)⟩

/-- C8 witness: a writer holding a sample with pts 100 rejects a frame with
pts 50 and keeps the held sample. -/
theorem writer_write_unflushed_witness :
    writeFrame ⟨RecordingToInsert.empty, SampleIndexEncoder.new, 0, 0,
        ClockAdjuster.new none, some ⟨0, 100, 10, true⟩⟩ 7 1 50 false =
      (⟨RecordingToInsert.empty, SampleIndexEncoder.new, 0, 0,
        ClockAdjuster.new none, some ⟨0, 100, 10, true⟩⟩,
       Except.error ("pts not monotonically increasing; got " ++
         toString (100 : Int) ++ " then " ++ toString (50 : Int))) :=
  (writer_write_unflushed _ ⟨0, 100, 10, true⟩ 7 1 50 false rfl).1 (by decide)

/-- C8 counterexample to the claim as stated: with held pts `2^32` and new
pts `5` the true difference is negative, but the `as i32` cast wraps it to
`5 > 0`, so `write` succeeds instead of failing. -/
theorem writer_write_pts_wrap_cex :
    ((5 : Int) - 4294967296 ≤ 0) ∧
    (writeFrame ⟨RecordingToInsert.empty, SampleIndexEncoder.new, 0, 0,
        ClockAdjuster.new none, some ⟨0, 4294967296, 10, true⟩⟩
        7 1 5 false).2 = Except.ok () := by
  constructor
  · norm_num
  · rfl

/-! ### writer.rs: Syncer planned flushes -/

/-- Modelled from the spec: `CompositeId` is a 64-bit identifier packing a
32-bit stream id (high) and a 32-bit recording id (low); here the two halves
are kept as separate fields, with `stream()` and `recording()` the
projections. -/
structure CompositeId where
  stream : Int
  recording : Int
deriving Repr, DecidableEq

/-- `struct PlannedFlush` (src/db/writer.rs).  `when` is a monotonic
instant; all instants and durations are in 90 kHz ticks (Modelled from the
spec: times are in 90 kHz ticks, so `Duration::seconds(s)` is `s * 90000`
and `recording::Duration::to_tm_duration` is the identity).  The `senders`
field is test instrumentation and is not modelled. -/
structure PlannedFlush where
  when : Int
  recording : CompositeId
  reason : String
deriving Repr, DecidableEq

/-- The planned-flush `BinaryHeap` is modelled as a list; its `Ord` reverses
`when`, so `peek` returns an entry with minimal `when`.  `peekPos` fixes the
leftmost such entry as the one `peek`/`peek_mut` yield. -/
def peekPos : List PlannedFlush → Option Nat
  | [] => none
  | f :: tl =>
    match peekPos tl with
    | none => some 0
    | some j =>
      match tl.get? j with
      | none => some 0
      | some g => if g.when < f.when then some (j + 1) else some 0

/-- `Syncer::save` (src/db/writer.rs), restricted to its flush-scheduling
step: the file and directory fsyncs, `mark_synced` and the retention
deletion touch only the file system and database and are not modelled.
`how_soon = Duration::seconds(s.flush_if_sec) - duration.to_tm_duration()`
in ticks; the `reason` string interpolates camera metadata that is not
modelled and is passed through. -/
def syncerSave (planned_flushes : List PlannedFlush) (flush_if_sec : Int)
    (now : Int) (id : CompositeId) (dur : Int) (reason : String) :
    List PlannedFlush :=
  let how_soon := flush_if_sec * 90000 - dur
  let w := now + how_soon
  planned_flushes ++ [⟨w, id, reason⟩]

/-- The discard loop at the top of `Syncer::flush` (src/db/writer.rs):
pop entries whose stream is gone or whose recording is already committed;
stop at the first entry still awaiting commit.  `streams` maps a stream id
to its `next_recording_id`.  The fuel (list length at the call site) covers
every iteration since each pop shortens the list. -/
def discardLoop (streams : Int → Option Int) :
    Nat → List PlannedFlush → List PlannedFlush
  | 0, l => l
  | fuel + 1, l =>
    match peekPos l with
    | none => l
    | some i =>
      match l.get? i with
      | none => l
      | some f =>
        match streams f.recording.stream with
        | none => discardLoop streams fuel (l.eraseIdx i)
        | some next_recording_id =>
          if next_recording_id ≤ f.recording.recording then l
          else discardLoop streams fuel (l.eraseIdx i)

/-- `Syncer::flush` (src/db/writer.rs).  `flushOk` stands for the result of
`l.flush(&f.reason)`; the source reads `monotonic()` once for the deadline
test and again on the failure path, both represented by `now`.
`Duration::minutes(1)` is `60 * 90000` ticks. -/
def syncerFlush (streams : Int → Option Int) (now : Int) (flushOk : Bool)
    (planned_flushes : List PlannedFlush) : List PlannedFlush :=
  let l := discardLoop streams planned_flushes.length planned_flushes
  match peekPos l with
  | none => l
  | some i =>
    match l.get? i with
    | none => l
    | some f =>
      if f.when > now then l
      else if flushOk then []
      else l.set i { f with when := now + 60 * 90000 }

/-- **C3** (corrected): the pushed `PlannedFlush` has
`when = now + (flush_if_sec * 90000 - dur)` with no clamp at zero; the
claim's `now + max(0, ...)` formula agrees exactly when the recording is no
longer than `flush_if_sec` seconds. -/
theorem syncer_save_when (pf : List PlannedFlush) (fls now dur : Int)
    (id : CompositeId) (reason : String) :
    syncerSave pf fls now id dur reason =
      pf ++ [⟨now + (fls * 90000 - dur), id, reason⟩] ∧
    (dur ≤ fls * 90000 →
      now + (fls * 90000 - dur) = now + max 0 (fls * 90000 - dur)) :=
  ⟨rfl, fun h => by rw [max_eq_right (by omega)]⟩

/-- C3 witness: `flush_if_sec = 2`, a one-second recording: the flush is
scheduled one second ahead, agreeing with the claim's formula. -/
theorem syncer_save_when_witness :
    syncerSave [] 2 10 ⟨1, 1⟩ 90000 "r" =
      [] ++ [⟨10 + (2 * 90000 - 90000), ⟨1, 1⟩, "r"⟩] ∧
    (10 : Int) + (2 * 90000 - 90000) = 10 + max 0 (2 * 90000 - 90000) :=
  ⟨(syncer_save_when [] 2 10 90000 ⟨1, 1⟩ "r").1,
   (syncer_save_when [] 2 10 90000 ⟨1, 1⟩ "r").2 (by norm_num)⟩

/-- C3 counterexample to the claim as stated: with `flush_if_sec = 0` and a
one-second recording the scheduled time is strictly before `now = 0`, and
differs from `now + max(0, flush_if_sec - dur)`. -/
theorem syncer_save_past_cex :
    ∃ f : PlannedFlush,
      syncerSave [] 0 0 ⟨1, 1⟩ 90000 "r" = [f] ∧ f.when < 0 ∧
        f.when ≠ 0 + max 0 (0 * 90000 - 90000) := by
  refine ⟨⟨0 + (0 * 90000 - 90000), ⟨1, 1⟩, "r"⟩, rfl, by norm_num, by norm_num⟩

/-- **C7** (confirmed): when the minimal-`when` entry `f` survives the
discard loop (its stream exists and its recording is not yet committed) and
is due (`f.when ≤ now`), a successful metadata flush empties the entire
heap, and a failed one rewrites exactly the head's `when` to one minute
past `now`, leaving every other entry unchanged. -/
theorem syncer_flush_coalesce (streams : Int → Option Int) (now : Int)
    (l : List PlannedFlush) (i : Nat) (f : PlannedFlush) (nid : Int)
    (hp : peekPos l = some i) (hg : l.get? i = some f)
    (hs : streams f.recording.stream = some nid)
    (hn : nid ≤ f.recording.recording) (hw : f.when ≤ now) :
    syncerFlush streams now true l = [] ∧
    syncerFlush streams now false l =
      l.set i { f with when := now + 60 * 90000 } := by
  have hl : l ≠ [] := by intro h; subst h; simp [peekPos] at hp
  obtain ⟨a, tl, rfl⟩ := List.exists_cons_of_ne_nil hl
  have hd : discardLoop streams (a :: tl).length (a :: tl) = a :: tl := by
    simp only [List.length_cons, discardLoop, hp, hg, hs]
    rw [if_pos hn]
  constructor <;>
  · simp only [syncerFlush, hd, hp, hg, if_neg (not_lt.mpr hw),
      if_pos, if_neg, Bool.true_eq_false, Bool.false_eq_true]
    try simp

/-- C7 witness: a single due, uncommitted entry: success clears the heap;
failure reschedules it one minute out. -/
theorem syncer_flush_coalesce_witness :
    syncerFlush (fun s => if s = 1 then some 5 else none) 10 true
        [⟨10, ⟨1, 5⟩, "r"⟩] = [] ∧
    syncerFlush (fun s => if s = 1 then some 5 else none) 10 false
        [⟨10, ⟨1, 5⟩, "r"⟩] =
      [(⟨10, ⟨1, 5⟩, "r"⟩ : PlannedFlush)].set 0 ⟨10 + 60 * 90000, ⟨1, 5⟩, "r"⟩ :=
  syncer_flush_coalesce (fun s => if s = 1 then some 5 else none) 10
    [⟨10, ⟨1, 5⟩, "r"⟩] 0 ⟨10, ⟨1, 5⟩, "r"⟩ 5 rfl rfl (by norm_num)
    (by norm_num) (by norm_num)

/-! ### clock.rs: SimulatedClocks -/

/-- `SimulatedClocks` (src/base/clock.rs): a fixed boot instant plus a
mutable uptime, both in one time unit (the Rust code uses
`Timespec`/`Duration`; the unit is irrelevant to the arithmetic). -/
structure SimulatedClocks where
  boot : Int
  uptime : Int
deriving Repr, DecidableEq

/-- `SimulatedClocks::new(boot)`. -/
def SimulatedClocks.new (boot : Int) : SimulatedClocks := ⟨boot, 0⟩

/-- `fn realtime`: `boot + uptime`. -/
def SimulatedClocks.realtime (c : SimulatedClocks) : Int := c.boot + c.uptime

/-- `fn monotonic`: `Timespec::new(0, 0) + uptime`. -/
def SimulatedClocks.monotonic (c : SimulatedClocks) : Int := 0 + c.uptime

/-- `fn sleep`: advances the clock without actually sleeping. -/
def SimulatedClocks.sleep (c : SimulatedClocks) (how_long : Int) :
    SimulatedClocks :=
  { c with uptime := c.uptime + how_long }

/-- `std::sync::mpsc::RecvTimeoutError`. -/
inductive RecvTimeoutError
  | timeout
  | disconnected
deriving Repr, DecidableEq

/-- `SimulatedClocks::recv_timeout` (src/base/clock.rs): `r` stands for the
result of the zero-timeout `rcv.recv_timeout(StdDuration::new(0, 0))`; on
any `Err` the clock sleeps for the full requested `timeout`, and `r` is
returned either way. -/
def SimulatedClocks.recv_timeout {α : Type} (c : SimulatedClocks)
    (r : Except RecvTimeoutError α) (timeout_ : Int) :
    SimulatedClocks × Except RecvTimeoutError α :=
  match r with
  | .error _ => (c.sleep timeout_, r)
  | .ok _ => (c, r)

/-- **C10** (confirmed): whenever the immediate receive fails — with
`Timeout` or with `Disconnected` — `recv_timeout` advances both the
monotonic and realtime views by exactly the requested timeout and returns
that error unchanged; when a message is immediately available the clock
does not move at all. -/
theorem simulated_recv_timeout {α : Type} (c : SimulatedClocks)
    (r : Except RecvTimeoutError α) (timeout_ : Int) :
    (∀ e, r = Except.error e →
      (c.recv_timeout r timeout_).1.monotonic = c.monotonic + timeout_ ∧
      (c.recv_timeout r timeout_).1.realtime = c.realtime + timeout_ ∧
      (c.recv_timeout r timeout_).2 = Except.error e) ∧
    (∀ v, r = Except.ok v → c.recv_timeout r timeout_ = (c, Except.ok v)) := by
  constructor
  · rintro e rfl
    refine ⟨?_, ?_, rfl⟩ <;>
    · simp [SimulatedClocks.recv_timeout, SimulatedClocks.sleep,
        SimulatedClocks.monotonic, SimulatedClocks.realtime]
      try ring
  · rintro v rfl
    rfl

/-- C10 witness: a disconnected channel at boot 100, uptime 5, timeout 7. -/
theorem simulated_recv_timeout_witness :
    ((SimulatedClocks.mk 100 5).recv_timeout
        (Except.error RecvTimeoutError.disconnected : Except RecvTimeoutError Unit)
        7).1.monotonic = (SimulatedClocks.mk 100 5).monotonic + 7 ∧
    ((SimulatedClocks.mk 100 5).recv_timeout
        (Except.error RecvTimeoutError.disconnected : Except RecvTimeoutError Unit)
        7).1.realtime = (SimulatedClocks.mk 100 5).realtime + 7 ∧
    ((SimulatedClocks.mk 100 5).recv_timeout
        (Except.error RecvTimeoutError.disconnected : Except RecvTimeoutError Unit)
        7).2 = Except.error RecvTimeoutError.disconnected :=
  (simulated_recv_timeout (SimulatedClocks.mk 100 5)
      (Except.error RecvTimeoutError.disconnected) 7).1
    RecvTimeoutError.disconnected rfl
